import Mathlib

/-!
# Verification of the circuit-sim MNA core

A shallow embedding of the circuit simulator's computational core
(`lib/circuit/complex.ts`, `lib/circuit/gaussCx.ts`, `lib/circuit/solve.ts`,
the net builder with its union-find clustering, and the Thevenin/Norton port
analysis of `components/editor/Inspector.tsx`), together with theorems that
settle the specification's claims about it.

## Number model

JavaScript numbers are modelled exactly:

* `Fr` is an unreduced fraction (integer numerator over a positive natural
  denominator).  Every finite number entering the algorithms is such a
  fraction, and all arithmetic on it is exact; we do not model the rounding
  of IEEE doubles, so every theorem about numeric results is about the
  ideal-arithmetic behaviour of the algorithms.
* `JsNum := Option Fr` adds the non-finite results: `none` stands for a
  non-finite value (`NaN` or an infinity).  Arithmetic propagates `none`,
  comparisons with `none` are `false` (as for `NaN` in JavaScript), and
  `Number.isFinite` is `Option.isSome`.  The two places where the source can
  produce an infinity rather than `NaN` (`x / 0` for `x ≠ 0`) immediately
  flow into products with `0` (giving `NaN`) or into `Number.isFinite`
  tests, so collapsing infinities and `NaN` into one `none` value does not
  change any observable branch taken by the embedded code.
-/

set_option maxRecDepth 100000

/-- An exact, unreduced fraction: the model of a finite JavaScript number. -/
structure Fr where
  num : Int
  den : Nat
  dpos : 0 < den

instance (n : Nat) : OfNat Fr n := ⟨⟨(n : Int), 1, Nat.one_pos⟩⟩

/-- Build the fraction `n / 1` from an integer. -/
def Fr.ofInt (n : Int) : Fr := ⟨n, 1, Nat.one_pos⟩

/-- Negation of fractions. -/
def fneg (a : Fr) : Fr := ⟨-a.num, a.den, a.dpos⟩

/-- Addition of fractions. -/
def fadd (a b : Fr) : Fr :=
  ⟨a.num * (b.den : Int) + b.num * (a.den : Int), a.den * b.den, Nat.mul_pos a.dpos b.dpos⟩

/-- Subtraction of fractions. -/
def fsub (a b : Fr) : Fr := fadd a (fneg b)

/-- Multiplication of fractions. -/
def fmul (a b : Fr) : Fr := ⟨a.num * b.num, a.den * b.den, Nat.mul_pos a.dpos b.dpos⟩

/-- Total division of fractions; division by a zero fraction returns the junk
value `0` (call sites that can divide by zero are modelled at the `JsNum`
level, where that case is mapped to the non-finite `none` instead). -/
def fdiv0 (a b : Fr) : Fr :=
  if h : b.num = 0 then ⟨0, 1, Nat.one_pos⟩
  else ⟨a.num * (b.den : Int) * b.num.sign, a.den * b.num.natAbs,
        Nat.mul_pos a.dpos (Int.natAbs_pos.mpr h)⟩

/-- `a < b` on fractions, as a boolean (cross multiplication). -/
def fltb (a b : Fr) : Bool := decide (a.num * (b.den : Int) < b.num * (a.den : Int))

/-- `a ≤ b` on fractions, as a boolean. -/
def fleb (a b : Fr) : Bool := decide (a.num * (b.den : Int) ≤ b.num * (a.den : Int))

/-- Semantic equality of fractions (they represent the same rational). -/
def feqb (a b : Fr) : Bool := decide (a.num * (b.den : Int) = b.num * (a.den : Int))

/-- `Math.max` on fractions. -/
def fmax (a b : Fr) : Fr := if fltb a b then b else a

/-- `Math.floor` on fractions (the denominator is positive, so integer
division of the numerator by it is the floor). -/
def floorF (a : Fr) : Int := a.num / (a.den : Int)

/-- The rational value of a fraction. -/
def Fr.toQ (a : Fr) : ℚ := (a.num : ℚ) / (a.den : ℚ)

/-- A JavaScript number: a finite exact value or the non-finite `none`. -/
abbrev JsNum := Option Fr

/-- The finite JavaScript number given by a fraction. -/
def fin (a : Fr) : JsNum := some a

/-- Addition of JavaScript numbers (non-finite propagates). -/
def nadd : JsNum → JsNum → JsNum
  | some a, some b => some (fadd a b)
  | _, _ => none

/-- Subtraction of JavaScript numbers. -/
def nsub : JsNum → JsNum → JsNum
  | some a, some b => some (fsub a b)
  | _, _ => none

/-- Multiplication of JavaScript numbers. -/
def nmul : JsNum → JsNum → JsNum
  | some a, some b => some (fmul a b)
  | _, _ => none

/-- Negation of JavaScript numbers. -/
def nneg : JsNum → JsNum
  | some a => some (fneg a)
  | none => none

/-- Division of JavaScript numbers; a zero divisor gives a non-finite result
(an infinity or `NaN` in JavaScript, both modelled by `none`). -/
def ndiv : JsNum → JsNum → JsNum
  | some a, some b => if feqb b 0 then none else some (fdiv0 a b)
  | _, _ => none

/-- Strict `<` on JavaScript numbers; comparisons with a non-finite value are
`false`, matching `NaN` comparison semantics. -/
def nltb : JsNum → JsNum → Bool
  | some a, some b => fltb a b
  | _, _ => false

/-- Strict `>` on JavaScript numbers. -/
def ngtb (a b : JsNum) : Bool := nltb b a

/-- `≤` on JavaScript numbers (`false` when either side is non-finite). -/
def nleb : JsNum → JsNum → Bool
  | some a, some b => fleb a b
  | _, _ => false

/-- Strict equality `===` on JavaScript numbers; `NaN === x` is `false`. -/
def neqb : JsNum → JsNum → Bool
  | some a, some b => feqb a b
  | _, _ => false

/-- `Number.isFinite`. -/
def nfinite : JsNum → Bool
  | some _ => true
  | none => false

/-! ## Complex numbers (`Cx` of `solve.ts` / `complex.ts`) -/

/-- A complex number whose components are JavaScript numbers. -/
structure Cx where
  re : JsNum
  im : JsNum

/-- A complex number with finite components. -/
def cxF (re im : Fr) : Cx := ⟨some re, some im⟩

/-- The all-`NaN` complex value `cx(NaN, NaN)`. -/
def cxNaN : Cx := ⟨none, none⟩

/-- Complex addition (`cadd`). -/
def cadd (a b : Cx) : Cx := ⟨nadd a.re b.re, nadd a.im b.im⟩

/-- Complex subtraction (`csub`). -/
def csub (a b : Cx) : Cx := ⟨nsub a.re b.re, nsub a.im b.im⟩

/-- Complex negation (`cneg`). -/
def cneg (a : Cx) : Cx := ⟨nneg a.re, nneg a.im⟩

/-- Complex multiplication (`cmul`). -/
def cmul (a b : Cx) : Cx :=
  ⟨nsub (nmul a.re b.re) (nmul a.im b.im), nadd (nmul a.re b.im) (nmul a.im b.re)⟩

/-- Complex conjugation (`cconj`). -/
def cconj (a : Cx) : Cx := ⟨a.re, nneg a.im⟩

/-- Squared magnitude (`cabs2`). -/
def cabs2 (a : Cx) : JsNum := nadd (nmul a.re a.re) (nmul a.im a.im)

/-- Complex division (`cdiv`): an exactly-zero squared magnitude of the
divisor yields `cx(NaN, NaN)`. -/
def cdiv (a b : Cx) : Cx :=
  let d := cabs2 b
  if neqb d (fin 0) then cxNaN
  else ⟨ndiv (nadd (nmul a.re b.re) (nmul a.im b.im)) d,
        ndiv (nsub (nmul a.im b.re) (nmul a.re b.im)) d⟩

/-- Complex reciprocal (`cinv`). -/
def cinv (a : Cx) : Cx := cdiv (cxF 1 0) a

/-- `isFiniteCx` from `complex.ts`. -/
def isFiniteCx (a : Cx) : Bool := nfinite a.re && nfinite a.im

/-- Componentwise `===` on complex values (statement helper). -/
def ceqb (a b : Cx) : Bool := neqb a.re b.re && neqb a.im b.im

/-! ## Value parsing (`parseRealWithSI`, `parseCx`, `parseValueAsCx`)

The source matches JavaScript regular expressions; here each regex is
implemented as a recursive-descent matcher over `List Char` recognising the
same language and producing the same captures (including the greedy choice
of the last sign when splitting `a±bi`).  Decimal literals are parsed to
their exact rational value. -/

instance : Neg Fr := ⟨fneg⟩

/-- Whitespace as used by the source's `trim` / `\s` (the characters that
actually occur in circuit documents). -/
def isWS (c : Char) : Bool := c = ' ' || c = '\t' || c = '\n' || c = '\r'

/-- JavaScript `String.trim`. -/
def trimWS (s : List Char) : List Char :=
  ((s.dropWhile isWS).reverse.dropWhile isWS).reverse

/-- `replace(/\s+/g, "")`. -/
def stripAllWS (s : List Char) : List Char := s.filter (fun c => !isWS c)

/-- Take a leading run of decimal digits. -/
def takeDigits : List Char → (List Char × List Char)
  | [] => ([], [])
  | c :: rest =>
    if c.isDigit then
      let (d, r) := takeDigits rest
      (c :: d, r)
    else ([], c :: rest)

/-- Numeric value of a digit string. -/
def digitsVal (ds : List Char) : Nat :=
  ds.foldl (fun acc c => 10 * acc + (c.toNat - '0'.toNat)) 0

/-- Take an optional leading `+`/`-` sign. -/
def takeSign : List Char → (Int × List Char)
  | '+' :: r => (1, r)
  | '-' :: r => (-1, r)
  | s => (1, s)

/-- Assemble the exact value of a decimal literal
`sign? ipart . frac e expSign? expVal`. -/
def mkNumFr (sgn : Int) (ipart : Nat) (fracDs : List Char) (expSgn : Int) (expVal : Nat) : Fr :=
  let k := fracDs.length
  let mant : Int := sgn * ((ipart * 10 ^ k + digitsVal fracDs : Nat) : Int)
  if 0 ≤ expSgn then
    ⟨mant * ((10 ^ expVal : Nat) : Int), 10 ^ k, pow_pos (by decide : (0:ℕ) < 10) k⟩
  else
    ⟨mant, 10 ^ k * 10 ^ expVal,
      Nat.mul_pos (pow_pos (by decide) k) (pow_pos (by decide) expVal)⟩

/-- Match `[+-]?\d+(?:\.\d+)?(?:e[+-]?\d+)?` at the front (the numeric part
of the `parseRealWithSI` regex); returns the value and the rest. -/
def parseBaseNum (s : List Char) : Option (Fr × List Char) :=
  let (sgn, s1) := takeSign s
  let (ds, s2) := takeDigits s1
  if ds.isEmpty then none
  else
    let (fr, s3) :=
      match s2 with
      | '.' :: r =>
        let (fs, r2) := takeDigits r
        if fs.isEmpty then (([] : List Char), s2) else (fs, r2)
      | _ => (([] : List Char), s2)
    let (esgn, ev, s4) :=
      match s3 with
      | 'e' :: r =>
        let (eg, r1) := takeSign r
        let (eds, r2) := takeDigits r1
        if eds.isEmpty then ((1:Int), 0, s3) else (eg, digitsVal eds, r2)
      | _ => ((1:Int), 0, s3)
    some (mkNumFr sgn (digitsVal ds) fr esgn ev, s4)

/-- The SI suffix table of `parseRealWithSI` (the suffix has already been
lowercased, as in the source). -/
def siMult (suf : List Char) : JsNum :=
  if suf = ([] : List Char) then some 1
  else if suf = ['k'] then some (Fr.ofInt 1000)
  else if suf = ['m'] then some ⟨1, 1000, by decide⟩
  else if suf = ['u'] then some ⟨1, 1000000, by decide⟩
  else if suf = ['n'] then some ⟨1, 1000000000, by decide⟩
  else if suf = ['p'] then some ⟨1, 1000000000000, by decide⟩
  else if suf = ['m', 'e', 'g'] then some (Fr.ofInt 1000000)
  else if suf = ['g'] then some (Fr.ofInt 1000000000)
  else none

/-- `parseRealWithSI` from `solve.ts`: trim, match
`^(number)\s*([a-zA-Z]+)?$`, scale by the lowercased SI suffix. -/
def parseRealWithSI (raw : String) : JsNum :=
  let s := trimWS raw.data
  if s.isEmpty then none
  else
    match parseBaseNum s with
    | none => none
    | some (v, rest) =>
      let rest2 := rest.dropWhile isWS
      if rest2.all Char.isAlpha then
        match siMult (rest2.map Char.toLower) with
        | none => none
        | some m => some (fmul v m)
      else none

/-- Match `[+-]?(?:\d+(?:\.\d*)?|\.\d+)(?:e[+-]?\d+)?` at the front (the
numeric part of the regex inside `parseCx`). -/
def parseBaseNumCx (s : List Char) : Option (Fr × List Char) :=
  let (sgn, s1) := takeSign s
  let core : Option (Nat × List Char × List Char) :=
    match s1 with
    | '.' :: r =>
      let (fs, r2) := takeDigits r
      if fs.isEmpty then none else some (0, fs, r2)
    | _ =>
      let (ds, s2) := takeDigits s1
      if ds.isEmpty then none
      else
        match s2 with
        | '.' :: r =>
          let (fs, r2) := takeDigits r
          some (digitsVal ds, fs, r2)
        | _ => some (digitsVal ds, ([] : List Char), s2)
  match core with
  | none => none
  | some (ip, fr, s3) =>
    let (esgn, ev, s4) :=
      match s3 with
      | 'e' :: r =>
        let (eg, r1) := takeSign r
        let (eds, r2) := takeDigits r1
        if eds.isEmpty then ((1:Int), 0, s3) else (eg, digitsVal eds, r2)
      | _ => ((1:Int), 0, s3)
    some (mkNumFr sgn ip fr esgn ev, s4)

/-- The single-character suffix class `[kKmMuUnNpP]|M` with its multiplier
map from `parseCx`; uppercase `M` is mega, lowercase `m` is milli, and there
is no `g`/`meg` suffix here. -/
def cxSuffix (c : Char) : Option Fr :=
  if c = 'p' ∨ c = 'P' then some ⟨1, 1000000000000, by decide⟩
  else if c = 'n' ∨ c = 'N' then some ⟨1, 1000000000, by decide⟩
  else if c = 'u' ∨ c = 'U' then some ⟨1, 1000000, by decide⟩
  else if c = 'm' then some ⟨1, 1000, by decide⟩
  else if c = 'k' ∨ c = 'K' then some (Fr.ofInt 1000)
  else if c = 'M' then some (Fr.ofInt 1000000)
  else none

/-- The inner `parseReal` helper of `parseCx`. -/
def parseRealCx (t : List Char) : Option Fr :=
  if t.isEmpty then none
  else
    match parseBaseNumCx t with
    | none => none
    | some (v, rest) =>
      match rest with
      | [] => some v
      | [c] =>
        match cxSuffix c with
        | some m => some (fmul v m)
        | none => none
      | _ => none

/-- Normalisation `replace(/j/gi, "i")` of `parseCx`. -/
def mapJtoI (s : List Char) : List Char :=
  s.map (fun c => if c = 'j' ∨ c = 'J' then 'i' else c)

/-- The split performed by the greedy regex `^(.+)?([+-])(.+)i$`: the last
`+`/`-` that leaves a nonempty imaginary part before the trailing `i`. -/
def splitLastSign (s : List Char) : Option (List Char × Char × List Char) :=
  match s.getLast? with
  | some 'i' =>
    let core := s.dropLast
    match (List.range (core.length - 1)).reverse.find?
        (fun p => core.getD p ' ' = '+' || core.getD p ' ' = '-') with
    | some p => some (core.take p, core.getD p ' ', core.drop (p + 1))
    | none => none
  | _ => none

/-- The match `^(.+)i$` (pure imaginary like `2i`). -/
def dropLastI (s : List Char) : Option (List Char) :=
  match s.getLast? with
  | some 'i' => if 2 ≤ s.length then some s.dropLast else none
  | _ => none

/-- `parseCx` from `complex.ts`, returning `none` for `null`. -/
def parseCxQ (input : String) : Option (Fr × Fr) :=
  let s0 := stripAllWS input.data
  if s0.isEmpty then none
  else
    let s := mapJtoI s0
    if !(s.contains 'i') then
      match parseRealCx s with
      | none => none
      | some r => some (r, 0)
    else if s = ['i'] then some (0, 1)
    else if s = ['+', 'i'] then some (0, 1)
    else if s = ['-', 'i'] then some (0, -1)
    else
      match splitLastSign s with
      | some (realStr, sgnC, imagStr) =>
        let reVal := if realStr.isEmpty then some (0 : Fr) else parseRealCx realStr
        match reVal, parseRealCx imagStr with
        | some re, some im0 => some (re, if sgnC = '-' then fneg im0 else im0)
        | _, _ => none
      | none =>
        match dropLastI s with
        | some body =>
          match parseRealCx body with
          | none => none
          | some im => some (0, im)
        | none => none

/-- `looksComplex` from `solve.ts`: the trimmed, lowercased value contains `j`. -/
def looksComplex (s : String) : Bool :=
  ((trimWS s.data).map Char.toLower).contains 'j'

/-- `parseValueAsCx` from `solve.ts`. -/
def parseValueAsCx (raw : String) : Cx :=
  let s := trimWS raw.data
  if s.isEmpty then cxNaN
  else if looksComplex (String.mk s) then
    match parseCxQ (String.mk s) with
    | some (re, im) => cxF re im
    | none => cxNaN
  else ⟨parseRealWithSI (String.mk s), some 0⟩

/-- The string transform of claim C6: replace every occurrence of `i` by `j`. -/
def mapItoJ (s : String) : String :=
  String.mk (s.data.map (fun c => if c = 'i' then 'j' else c))

/-! ## Element impedance (`elementImpedance` of `solve.ts`) -/

/-- The element kinds of the circuit document / net. -/
inductive ElType
  | R | C | L | V | I | GND
deriving DecidableEq

/-- The exact value of the IEEE-double constant `Math.PI`
(`884279719003555 / 2^48`). -/
def mathPI : Fr := ⟨884279719003555, 281474976710656, by decide⟩

/-- The DC open-circuit stand-in `1e18` ohms for a capacitor. -/
def dcOpenC : Fr := Fr.ofInt (10 ^ 18)

/-- The DC short-circuit stand-in `1e-12` ohms for an inductor. -/
def dcShortL : Fr := ⟨1, 10 ^ 12, pow_pos (by decide) 12⟩

/-- `elementImpedance(type, value, freqHz)` from `solve.ts`; only reachable
with `R`/`C`/`L` (the TypeScript signature restricts the type), other tags
return `cx(NaN, NaN)`. -/
def elementImpedance (ty : ElType) (value : String) (freqHz : Fr) : Cx :=
  let s := String.mk (trimWS value.data)
  let w : Fr := fmul (fmul 2 mathPI) (fmax 0 freqHz)
  if ty = ElType.R then parseValueAsCx s
  else if ty = ElType.C ∨ ty = ElType.L then
    if looksComplex s then
      match parseCxQ s with
      | some (re, im) => cxF re im
      | none => cxNaN
    else
      match parseRealWithSI s with
      | none => cxNaN
      | some x =>
        if ty = ElType.C then
          if feqb w 0 then cxF dcOpenC 0
          else ⟨some 0, ndiv (some (fneg 1)) (some (fmul w x))⟩
        else
          if feqb w 0 then cxF dcShortL 0
          else cxF 0 (fmul w x)
  else cxNaN

/-! ## Complex Gaussian elimination

`solveLinear` of `solve.ts` (the solver `solveMNA` actually calls) and
`solveLinearSystemCx` of `gaussCx.ts`.  Matrices are row lists; out-of-range
access yields `cx(NaN, NaN)` like arithmetic on `undefined` (never reached
on the square systems the callers build).  `gaussCx.ts` compares magnitudes
(`Math.hypot`) against `1e-14` and against each other; magnitudes are
non-negative, so those comparisons are modelled exactly on squared
magnitudes, against `1e-28`. -/

/-- Vector entry access. -/
def getV (v : List Cx) (i : Nat) : Cx := v.getD i cxNaN

/-- Matrix entry access. -/
def getM (A : List (List Cx)) (i j : Nat) : Cx := (A.getD i []).getD j cxNaN

/-- `makeVec`. -/
def makeVec (n : Nat) : List Cx := List.replicate n (cxF 0 0)

/-- `makeMat`. -/
def makeMat (n : Nat) : List (List Cx) := List.replicate n (makeVec n)

/-- Swap two rows of a matrix. -/
def swapRows (A : List (List Cx)) (k piv : Nat) : List (List Cx) :=
  let rk := A.getD k []
  let rp := A.getD piv []
  (A.set k rp).set piv rk

/-- Swap two entries of a vector. -/
def swapVec (z : List Cx) (k piv : Nat) : List Cx :=
  let ek := getV z k
  let ep := getV z piv
  (z.set k ep).set piv ek

/-- Partial-pivot scan shared by both solvers: starting from the diagonal
entry of column `k`, pick the row below with strictly larger squared
magnitude. -/
def pivotScan (A : List (List Cx)) (k n : Nat) : Nat × JsNum :=
  (List.range' (k + 1) (n - (k + 1))).foldl
    (fun acc i =>
      let v := cabs2 (getM A i k)
      if ngtb v acc.2 then (i, v) else acc)
    (k, cabs2 (getM A k k))

/-- `addTo`. -/
def addTo (A : List (List Cx)) (i j : Nat) (v : Cx) : List (List Cx) :=
  A.set i ((A.getD i []).set j (cadd (getM A i j) v))

/-- `addToZ`. -/
def addToZ (z : List Cx) (i : Nat) (v : Cx) : List Cx :=
  z.set i (cadd (getV z i) v)

/-- One forward-elimination step of `solveLinear` (column `k`): pick the
pivot, fail when its squared magnitude is exactly zero or non-finite, swap,
and eliminate the rows below. -/
def elimStep (n : Nat) (st : List (List Cx) × List Cx) (k : Nat) :
    Option (List (List Cx) × List Cx) :=
  let A := st.1
  let z := st.2
  let pb := pivotScan A k n
  let piv := pb.1
  let best := pb.2
  if neqb best (fin 0) || !nfinite best then none
  else
    let A := if piv = k then A else swapRows A k piv
    let z := if piv = k then z else swapVec z k piv
    let Ak := A.getD k []
    let zk := getV z k
    let Akk := Ak.getD k cxNaN
    some ((List.range' (k + 1) (n - (k + 1))).foldl
      (fun (st : List (List Cx) × List Cx) i =>
        let A := st.1
        let z := st.2
        let row := A.getD i []
        let factor := cdiv (row.getD k cxNaN) Akk
        if neqb (cabs2 factor) (fin 0) then (A, z)
        else
          let row' := (List.range' k (n - k)).foldl
            (fun r j => r.set j (csub (r.getD j cxNaN) (cmul factor (Ak.getD j cxNaN)))) row
          (A.set i row', z.set i (csub (getV z i) (cmul factor zk))))
      (A, z))

/-- Forward elimination of `solveLinear` over all columns. -/
def forwardElim (n : Nat) (A : List (List Cx)) (z : List Cx) :
    Option (List (List Cx) × List Cx) :=
  (List.range n).foldl
    (fun st k =>
      match st with
      | none => none
      | some s => elimStep n s k)
    (some (A, z))

/-- Back substitution of `solveLinear`. -/
def backSub (n : Nat) (A : List (List Cx)) (z : List Cx) : List Cx :=
  ((List.range n).reverse).foldl
    (fun x i =>
      let sum := (List.range' (i + 1) (n - (i + 1))).foldl
        (fun s j => cadd s (cmul (getM A i j) (getV x j))) (cxF 0 0)
      x.set i (cdiv (csub (getV z i) sum) (getM A i i)))
    (makeVec n)

/-- `solveLinear` from `solve.ts`: the Gaussian elimination used by
`solveMNA`.  `none` is the `{ ok: false }` singular-matrix result; note it
rejects only an exactly-zero or non-finite pivot magnitude and performs no
finiteness check on the back-substituted solution. -/
def solveLinear (Ain : List (List Cx)) (zin : List Cx) : Option (List Cx) :=
  let n := Ain.length
  match forwardElim n Ain zin with
  | none => none
  | some s => some (backSub n s.1 s.2)

/-- Failure cases of `solveLinearSystemCx` (`gaussCx.ts`), in source order. -/
inductive GErr
  | emptySystem | notSquare | sizeMismatch | singular | nonFiniteResult
deriving DecidableEq

/-- `(1e-14)^2`: the pivot threshold `EPS` of `gaussCx.ts`, squared. -/
def EPS2cx : Fr := ⟨1, 10 ^ 28, pow_pos (by decide) 28⟩

/-- One Gauss–Jordan step of `solveLinearSystemCx` (column `col`): pivot by
largest magnitude, fail when the best magnitude is below `1e-14`, normalise
the pivot row, and eliminate the column from every other row. -/
def gjStep (n : Nat) (st : List (List Cx) × List Cx) (col : Nat) :
    Option (List (List Cx) × List Cx) :=
  let A := st.1
  let b := st.2
  let pb := pivotScan A col n
  let pivotRow := pb.1
  let best := pb.2
  if nltb best (fin EPS2cx) then none
  else
    let A := if pivotRow = col then A else swapRows A col pivotRow
    let b := if pivotRow = col then b else swapVec b col pivotRow
    let pivot := getM A col col
    let A := A.set col ((List.range' col (n - col)).foldl
      (fun r c => r.set c (cdiv (r.getD c cxNaN) pivot)) (A.getD col []))
    let b := b.set col (cdiv (getV b col) pivot)
    let Acol := A.getD col []
    let bcol := getV b col
    some ((List.range n).foldl
      (fun (st : List (List Cx) × List Cx) r =>
        if r = col then st
        else
          let A := st.1
          let b := st.2
          let factor := getM A r col
          if nltb (cabs2 factor) (fin EPS2cx) then (A, b)
          else
            let row' := (List.range' col (n - col)).foldl
              (fun row c => row.set c (csub (row.getD c cxNaN) (cmul factor (Acol.getD c cxNaN))))
              (A.getD r [])
            (A.set r row', b.set r (csub (getV b r) (cmul factor bcol))))
      (A, b))

/-- `solveLinearSystemCx` from `gaussCx.ts` (not called by `solveMNA`): the
Gauss–Jordan solver with the `1e-14` pivot threshold and the final
non-finite-solution rejection. -/
def solveLinearSystemCx (Ain : List (List Cx)) (bin : List Cx) : Except GErr (List Cx) :=
  let n := Ain.length
  if n = 0 then Except.error GErr.emptySystem
  else
    let m := (Ain.getD 0 []).length
    if m ≠ n then Except.error GErr.notSquare
    else if bin.length ≠ n then Except.error GErr.sizeMismatch
    else
      match (List.range n).foldl
          (fun st col =>
            match st with
            | none => none
            | some s => gjStep n s col)
          (some (Ain, bin)) with
      | none => Except.error GErr.singular
      | some s =>
        if s.2.any (fun v => !isFiniteCx v) then Except.error GErr.nonFiniteResult
        else Except.ok s.2


/-- The forward-elimination state of `solveLinear` after its first `k`
columns (the prefix of `forwardElim`'s fold over the columns). -/
def elimTrace (n : Nat) (A : List (List Cx)) (z : List Cx) (k : Nat) :
    Option (List (List Cx) × List Cx) :=
  (List.range k).foldl
    (fun st c =>
      match st with
      | none => none
      | some s => elimStep n s c)
    (some (A, z))

/-- The failure condition of `elimStep` at column `k`: the selected pivot's
squared magnitude is exactly zero or non-finite (`best === 0 ||
!isFinite(best)` in `solve.ts`). -/
def badPivot (n k : Nat) (s : List (List Cx) × List Cx) : Bool :=
  neqb (pivotScan s.1 k n).2 (fin 0) || !nfinite (pivotScan s.1 k n).2

/-- The Gauss–Jordan state of `solveLinearSystemCx` after its first `k`
columns. -/
def gjTrace (n : Nat) (A : List (List Cx)) (b : List Cx) (k : Nat) :
    Option (List (List Cx) × List Cx) :=
  (List.range k).foldl
    (fun st col =>
      match st with
      | none => none
      | some s => gjStep n s col)
    (some (A, b))

/-- The failure condition of `gjStep` at column `k`: the best pivot
magnitude is below `1e-14` (`best < EPS` in `gaussCx.ts`, here on squared
magnitudes). -/
def smallPivot (n k : Nat) (s : List (List Cx) × List Cx) : Bool :=
  nltb (pivotScan s.1 k n).2 (fin EPS2cx)

/-! ## The MNA solver (`solveMNA` of `solve.ts`)

Optional fields of the source's net elements (`a?`, `b?`, `value?`) are
modelled as strings with `""` for a missing value: the only uses are the
falsy tests `!nid` and the defaults `?? ""`, and `""` is falsy exactly like
`undefined`.  The human-readable `solveSteps` trace and the `debugCx` dump
are observability-only strings, computed from the same data the result maps
are computed from; they are not modelled. -/

/-- A node of a built net. -/
structure NetNode where
  id : String
  px : Fr
  py : Fr

/-- An element of a built net, with terminals rewritten to node identifiers. -/
structure NetElem where
  id : String
  ty : ElType
  name : String
  a : String
  b : String
  value : String

/-- A built electrical net. -/
structure CircuitNet where
  nodes : List NetNode
  hasGround : Bool
  elements : List NetElem

/-- A JavaScript record keyed by strings, modelled by its lookup function. -/
def Rec := String → Option Cx

/-- Record update `r[k] = v`. -/
def recSet (r : Rec) (k : String) (v : Cx) : Rec :=
  fun q => if q = k then some v else r q

/-- The empty record. -/
def recEmpty : Rec := fun _ => none

/-- The node-index map: each non-ground node id to its position (later
entries overwrite, like `Map.set`). -/
def nodeIndexOf (ids : List String) : String → Option Nat :=
  ids.enum.foldl (fun f p => fun q => if q = p.2 then some p.1 else f q) (fun _ => none)

/-- `idxV`: the unknown index of a node id, `none` for ground or a falsy id. -/
def idxV (nodeIndex : String → Option Nat) (nid : String) : Option Nat :=
  if nid = "" ∨ nid = "gnd" then none else nodeIndex nid

/-- Passive-admittance and current-source stamping (first element loop of
`solveMNA`). -/
def stampElement (freqHz : Fr) (nodeIndex : String → Option Nat)
    (st : List (List Cx) × List Cx) (e : NetElem) : List (List Cx) × List Cx :=
  let A := st.1
  let z := st.2
  if e.ty = ElType.R ∨ e.ty = ElType.C ∨ e.ty = ElType.L then
    let ia := idxV nodeIndex e.a
    let ib := idxV nodeIndex e.b
    let Z := elementImpedance e.ty e.value freqHz
    let Y := cinv Z
    let A := match ia with | some i => addTo A i i Y | none => A
    let A := match ib with | some i => addTo A i i Y | none => A
    let A := match ia, ib with
      | some i, some j => addTo (addTo A i j (cneg Y)) j i (cneg Y)
      | _, _ => A
    (A, z)
  else if e.ty = ElType.I then
    let ia := idxV nodeIndex e.a
    let ib := idxV nodeIndex e.b
    let Iv := parseValueAsCx e.value
    let z := match ia with | some i => addToZ z i (cneg Iv) | none => z
    let z := match ib with | some i => addToZ z i Iv | none => z
    (A, z)
  else (A, z)

/-- Voltage-source stamping (B/Bᵗ coupling plus the KVL row) for the `k`-th
voltage source. -/
def stampVsrc (nodeIndex : String → Option Nat) (N : Nat)
    (st : List (List Cx) × List Cx) (ke : Nat × NetElem) : List (List Cx) × List Cx :=
  let A := st.1
  let z := st.2
  let row := N + ke.1
  let e := ke.2
  let ia := idxV nodeIndex e.a
  let ib := idxV nodeIndex e.b
  let V := parseValueAsCx e.value
  let A := match ia with | some i => addTo (addTo A i row (cxF 1 0)) row i (cxF 1 0) | none => A
  let A := match ib with
    | some i => addTo (addTo A i row (cxF (-1) 0)) row i (cxF (-1) 0)
    | none => A
  (A, addToZ z row V)

/-- `Vof`: the solved voltage of a node id (ground and unknown ids read 0). -/
def Vof (nodeVoltages : Rec) (nid : String) : Cx :=
  if nid = "" ∨ nid = "gnd" then cxF 0 0
  else
    match nodeVoltages nid with
    | some v => v
    | none => cxF 0 0

/-- Per-element voltage/current/power extraction (final element loop of
`solveMNA`). -/
def extractElem (freqHz : Fr) (nodeVoltages vsrcCurrents : Rec)
    (st : Rec × Rec × Rec) (e : NetElem) : Rec × Rec × Rec :=
  let ev := st.1
  let ec := st.2.1
  let ep := st.2.2
  if e.ty = ElType.GND then
    (recSet ev e.id (cxF 0 0), recSet ec e.id (cxF 0 0), recSet ep e.id (cxF 0 0))
  else
    let Va := Vof nodeVoltages e.a
    let Vb := Vof nodeVoltages e.b
    let Vab := csub Va Vb
    let ev := recSet ev e.id Vab
    if e.ty = ElType.V then
      let Icur := match vsrcCurrents e.id with | some c => c | none => cxF 0 0
      (ev, recSet ec e.id Icur, recSet ep e.id (cmul Vab (cconj Icur)))
    else if e.ty = ElType.I then
      let Icur := parseValueAsCx e.value
      (ev, recSet ec e.id Icur, recSet ep e.id (cmul Vab (cconj Icur)))
    else
      let Z := elementImpedance e.ty e.value freqHz
      let Icur := cdiv Vab Z
      (ev, recSet ec e.id Icur, recSet ep e.id (cmul Vab (cconj Icur)))

/-- The solved quantities returned by `solveMNA` (`none` entries are absent
record keys). -/
structure SolveRes where
  nodeVoltages : Rec
  elementVoltages : Rec
  elementCurrents : Rec
  elementPowers : Rec

/-- `solveMNA(net, freqHz)`: `none` is the `{ ok: false }` result (no
nodes, no ground, or a singular linear system). -/
def solveMNA (net : CircuitNet) (freqHz : Fr) : Option SolveRes :=
  if net.nodes.isEmpty then none
  else if !net.hasGround then none
  else
    let nodeIds := (net.nodes.map (fun n => n.id)).filter (fun i => i ≠ "gnd")
    let nodeIndex := nodeIndexOf nodeIds
    let vsrc := net.elements.filter (fun e => e.ty = ElType.V)
    let N := nodeIds.length
    let M := vsrc.length
    let dim := N + M
    let st1 := net.elements.foldl (stampElement freqHz nodeIndex) (makeMat dim, makeVec dim)
    let st2 := vsrc.enum.foldl (stampVsrc nodeIndex N) st1
    match solveLinear st2.1 st2.2 with
    | none => none
    | some x =>
      let nodeVoltages :=
        recSet (nodeIds.enum.foldl (fun f p => recSet f p.2 (getV x p.1)) recEmpty)
          "gnd" (cxF 0 0)
      let vsrcCurrents :=
        (vsrc.map (fun e => e.id)).enum.foldl
          (fun f p => recSet f p.2 (getV x (N + p.1))) recEmpty
      let maps := net.elements.foldl (extractElem freqHz nodeVoltages vsrcCurrents)
        (recEmpty, recEmpty, recEmpty)
      some ⟨nodeVoltages, maps.1, maps.2.1, maps.2.2⟩

/-! ## Port (Thevenin/Norton) analysis

The computation inside `renderPort`'s click handler in `Inspector.tsx`.
`|Vth|` is computed by `Math.hypot` in the source and only ever used
squared, so `|Vth|²` is modelled as `cabs2 Vth`. -/

/-- Deactivate independent sources: every `V` and every `I` element's value
becomes `"0"`. -/
def killSources (elems : List NetElem) : List NetElem :=
  elems.map (fun e =>
    if e.ty = ElType.V then { e with value := "0" }
    else if e.ty = ElType.I then { e with value := "0" }
    else e)

/-- Drop the designated load element, if any. -/
def removeLoad (elems : List NetElem) (loadId : Option String) : List NetElem :=
  elems.filter (fun e =>
    match loadId with
    | some l => e.id ≠ l
    | none => true)

/-- Append the synthetic 1 A test source `I_TEST` whose terminal `a` is port
node `b` and terminal `b` is port node `a`. -/
def withTestSource (elems : List NetElem) (a b : String) : List NetElem :=
  elems ++ [⟨"I_TEST", ElType.I, "I_TEST", b, a, "1"⟩]

/-- The quantities of a successful port analysis; `pmax` is `NaN` (`none`)
when `Re(Zth) > 0` fails, and the report prints the maximum-power line only
when `pmax` is finite. -/
structure PortReport where
  vth : Cx
  zth : Cx
  zlopt : Cx
  rth : JsNum
  pmax : JsNum

/-- Outcomes of the port analysis. -/
inductive PortOut
  | needSolve
  | vthFail
  | zthFail
  | ok (r : PortReport)

/-- The Thevenin/Norton port analysis of `Inspector.tsx`. -/
def portAnalysis (builtNet : CircuitNet) (freqHz : Fr) (a b : String)
    (loadId : Option String) : PortOut :=
  if a = "" ∨ b = "" then PortOut.needSolve
  else
    let baseNet : CircuitNet := { builtNet with elements := removeLoad builtNet.elements loadId }
    match solveMNA baseNet freqHz with
    | none => PortOut.vthFail
    | some resV =>
      let Va := (resV.nodeVoltages a).getD (cxF 0 0)
      let Vb := (resV.nodeVoltages b).getD (cxF 0 0)
      let Vth := csub Va Vb
      let offNet2 : CircuitNet :=
        { baseNet with elements := withTestSource (killSources baseNet.elements) a b }
      match solveMNA offNet2 freqHz with
      | none => PortOut.zthFail
      | some resZ =>
        let Va2 := (resZ.nodeVoltages a).getD (cxF 0 0)
        let Vb2 := (resZ.nodeVoltages b).getD (cxF 0 0)
        let Zth := csub Va2 Vb2
        let ZLopt := cconj Zth
        let Rth := Zth.re
        let Pmax := if ngtb Rth (fin 0) then ndiv (cabs2 Vth) (nmul (fin 4) Rth) else none
        PortOut.ok ⟨Vth, Zth, ZLopt, Rth, Pmax⟩

/-! ## Net building (`buildNet` with union-find clustering)

Geometry (coordinates, grid) is modelled with finite numbers `Fr`; the
decimal literals `0.35` and the rest are taken at their exact decimal
value, consistently with the exact-arithmetic model.  JavaScript `Map`s
are modelled as association lists with `Map` update semantics (an existing
key keeps its position, a new key is appended), and `Map` iteration is the
list order. -/

/-- Association-list lookup (`Map.get`). -/
def mapGet {α β : Type} [DecidableEq α] (m : List (α × β)) (k : α) : Option β :=
  (m.find? (fun pr => decide (pr.1 = k))).map (fun pr => pr.2)

/-- Association-list update (`Map.set`). -/
def mapSet {α β : Type} [DecidableEq α] (m : List (α × β)) (k : α) (v : β) : List (α × β) :=
  if (m.find? (fun pr => decide (pr.1 = k))).isSome then
    m.map (fun pr => if pr.1 = k then (k, v) else pr)
  else m ++ [(k, v)]

/-- `m.set(k, (m.get(k) ?? []).push(v))`. -/
def mapPush {α : Type} [DecidableEq α] (m : List (α × List Nat)) (k : α) (v : Nat) :
    List (α × List Nat) :=
  mapSet m k (((mapGet m k).getD []) ++ [v])

/-- A 2-D point. -/
structure PointF where
  x : Fr
  y : Fr

instance : Inhabited PointF := ⟨⟨0, 0⟩⟩

/-- Squared Euclidean distance (`dist2`). -/
def dist2 (a b : PointF) : Fr :=
  fadd (fmul (fsub a.x b.x) (fsub a.x b.x)) (fmul (fsub a.y b.y) (fsub a.y b.y))

/-- A document element; a `GND` element carries its single terminal in `a`
and leaves `b`/`value` unused (`""`). -/
structure DocElem where
  id : String
  ty : ElType
  name : String
  a : PointF
  b : PointF
  value : String

/-- A wire polyline. -/
structure DocWire where
  id : String
  points : List PointF

/-- A junction marker. -/
structure DocJunction where
  id : String
  p : PointF

/-- The circuit document (schema version omitted: it is never read). -/
structure CircuitDoc where
  grid : Fr
  freqHz : Fr
  elements : List DocElem
  wires : List DocWire
  junctions : List DocJunction

/-- Conductive-point kinds. -/
inductive PKind
  | terminal | junction | wire
deriving DecidableEq

/-- Terminal roles. -/
inductive TermTag
  | a | b | gnd
deriving DecidableEq

/-- A collected conductive point (`PRef`). -/
structure PRef where
  p : PointF
  kind : PKind
  ownerId : String
  term : Option TermTag

instance : Inhabited PRef := ⟨⟨default, PKind.wire, "", none⟩⟩

/-- Collect all conductive points of a document: element terminals, then
junctions, then wire polyline points. -/
def collectPoints (doc : CircuitDoc) : List PRef :=
  (doc.elements.bind (fun el =>
    if el.ty = ElType.GND then [⟨el.a, PKind.terminal, el.id, some TermTag.gnd⟩]
    else [⟨el.a, PKind.terminal, el.id, some TermTag.a⟩,
          ⟨el.b, PKind.terminal, el.id, some TermTag.b⟩]))
  ++ doc.junctions.map (fun j => ⟨j.p, PKind.junction, j.id, none⟩)
  ++ doc.wires.bind (fun w => w.points.map (fun p => ⟨p, PKind.wire, w.id, none⟩))

/-- Union-find state (`UnionFind` of `unionFind.ts`). -/
structure UF where
  parent : List Nat
  rank : List Nat

/-- The initial union-find over `n` points. -/
def UF.init (n : Nat) : UF := ⟨List.range n, List.replicate n 0⟩

/-- Parent pointer (out-of-range reads as a self-loop; never reached on
in-range indices). -/
def parentOf (uf : UF) (x : Nat) : Nat := uf.parent.getD x x

/-- Path-compressing `find`, fuelled by the number of points (parent chains
are acyclic and visit distinct nodes, so a fuel of `n` always reaches the
root). -/
def findAux : Nat → UF → Nat → UF × Nat
  | 0, uf, x => (uf, x)
  | fuel + 1, uf, x =>
    let p := parentOf uf x
    if p = x then (uf, x)
    else
      let r := findAux fuel uf p
      (⟨r.1.parent.set x r.2, r.1.rank⟩, r.2)

/-- `find`. -/
def UF.find (uf : UF) (x : Nat) : UF × Nat := findAux uf.parent.length uf x

/-- `union` (by rank). -/
def UF.union (uf : UF) (a b : Nat) : UF :=
  let fa := uf.find a
  let fb := fa.1.find b
  let uf2 := fb.1
  let ra := fa.2
  let rb := fb.2
  if ra = rb then uf2
  else
    let rka := uf2.rank.getD ra 0
    let rkb := uf2.rank.getD rb 0
    if rka < rkb then ⟨uf2.parent.set ra rb, uf2.rank⟩
    else if rkb < rka then ⟨uf2.parent.set rb ra, uf2.rank⟩
    else ⟨uf2.parent.set rb ra, uf2.rank.set ra (rka + 1)⟩

/-- `groups()`: map every index to its root (threading the compression
state like the source's mutating `find`). -/
def UF.groups (uf : UF) : UF × List (Nat × List Nat) :=
  (List.range uf.parent.length).foldl
    (fun st i =>
      let f := st.1.find i
      (f.1, mapPush st.2 f.2 i))
    (uf, [])

/-- The clustering tolerance `max(6, floor(grid * 0.35))`. -/
def tolOf (grid : Fr) : Fr :=
  fmax 6 (Fr.ofInt (floorF (fmul grid ⟨35, 100, by decide⟩)))

/-- The bucket cell size `max(10, grid)`. -/
def cellOf (grid : Fr) : Fr := fmax 10 grid

/-- The bucket key `(floor(x/cell), floor(y/cell))` of a point (the source's
string key `"cx,cy"` is an injective image of this pair). -/
def cellIdxOf (cell : Fr) (p : PointF) : Int × Int :=
  (floorF (fdiv0 p.x cell), floorF (fdiv0 p.y cell))

/-- Build the spatial hash buckets. -/
def buildBuckets (points : List PRef) (cell : Fr) : List ((Int × Int) × List Nat) :=
  points.enum.foldl (fun m ip => mapPush m (cellIdxOf cell ip.2.p) ip.1) []

/-- Collect the indices in the 3×3 cell neighbourhood of `(cx, cy)`. -/
def neighborsOf (buckets : List ((Int × Int) × List Nat)) (cx cy : Int) : List Nat :=
  [(-1 : Int), 0, 1].bind (fun dx =>
    [(-1 : Int), 0, 1].bind (fun dy =>
      (mapGet buckets (cx + dx, cy + dy)).getD []))

/-- The main geometric union pass: for every point `i`, union with every
bucket neighbour `j > i` within the squared tolerance. -/
def unionPass (points : List PRef) (tol2 cell : Fr)
    (buckets : List ((Int × Int) × List Nat)) (uf0 : UF) : UF :=
  points.enum.foldl
    (fun uf ip =>
      let c := cellIdxOf cell ip.2.p
      (neighborsOf buckets c.1 c.2).foldl
        (fun uf j =>
          if j ≤ ip.1 then uf
          else if fleb (dist2 ip.2.p (points.getD j default).p) tol2 then uf.union ip.1 j
          else uf)
        uf)
    uf0

/-- Indices of the points of each wire polyline. -/
def wireIdxMap (points : List PRef) : List (String × List Nat) :=
  points.enum.foldl
    (fun m ip =>
      if ip.2.kind = PKind.wire ∧ ip.2.ownerId ≠ "" then mapPush m ip.2.ownerId ip.1
      else m)
    []

/-- Union every wire point with the first point of its polyline. -/
def unionWires (m : List (String × List Nat)) (uf : UF) : UF :=
  m.foldl (fun uf pr => (pr.2.drop 1).foldl (fun uf j => uf.union (pr.2.getD 0 0) j) uf) uf

/-- The whole clustering phase of `buildNet`: geometric unions then wire
unions, over the collected points of the document. -/
def clusterUF (doc : CircuitDoc) : UF :=
  let points := collectPoints doc
  let tol := tolOf doc.grid
  let cell := cellOf doc.grid
  let buckets := buildBuckets points cell
  unionWires (wireIdxMap points) (unionPass points (fmul tol tol) cell buckets (UF.init points.length))

/-- Whether two point indices end in the same equivalence class of the
clustering (equal roots). -/
def sameClass (uf : UF) (i j : Nat) : Bool :=
  decide ((uf.find i).2 = ((uf.find i).1.find j).2)

/-- The per-element terminal→node-id triple (`{a?, b?, gnd?}`). -/
structure TermTriple where
  a : Option String
  b : Option String
  g : Option String

/-- Ground flag of each group: some member point carries the `gnd` role. -/
def groupFlags (points : List PRef) (groups : List (Nat × List Nat)) : List (Nat × Bool) :=
  groups.map (fun pr => (pr.1, pr.2.any (fun i => (points.getD i default).term = some TermTag.gnd)))

/-- Representative (centroid) of each group. -/
def groupReps (points : List PRef) (groups : List (Nat × List Nat)) : List (Nat × PointF) :=
  groups.map (fun pr =>
    let len := Fr.ofInt (pr.2.length : Int)
    let sx := pr.2.foldl (fun s i => fadd s (points.getD i default).p.x) 0
    let sy := pr.2.foldl (fun s i => fadd s (points.getD i default).p.y) 0
    (pr.1, ⟨fdiv0 sx len, fdiv0 sy len⟩))

/-- First identifier pass: every ground-flagged group becomes `"gnd"`. -/
def gndAssign (flags : List (Nat × Bool)) (groups : List (Nat × List Nat)) :
    List (Nat × String) :=
  groups.foldl
    (fun m pr => if (mapGet flags pr.1).getD false then mapSet m pr.1 "gnd" else m) []

/-- Node-identifier assignment: first every ground-flagged group becomes
`"gnd"`, then the remaining groups get `"n1"`, `"n2"`, … in group order. -/
def assignIds (groups : List (Nat × List Nat)) (flags : List (Nat × Bool)) : List (Nat × String) :=
  (groups.foldl
    (fun (st : List (Nat × String) × Nat) pr =>
      if (mapGet st.1 pr.1).isSome then st
      else (mapSet st.1 pr.1 ("n" ++ toString st.2), st.2 + 1))
    (gndAssign flags groups, 1)).1

/-- Map every element to the node ids of its terminals (threading the
union-find state through the `find` calls like the source). -/
def elementNodeMap (points : List PRef) (ufg : UF) (ids : List (Nat × String)) :
    List (String × TermTriple) :=
  (points.enum.foldl
    (fun (st : UF × List (String × TermTriple)) ip =>
      if ip.2.kind ≠ PKind.terminal ∨ ip.2.ownerId = "" then st
      else
        let f := st.1.find ip.1
        let nid := (mapGet ids f.2).getD ""
        let prev := (mapGet st.2 ip.2.ownerId).getD ⟨none, none, none⟩
        let prev2 : TermTriple :=
          match ip.2.term with
          | some TermTag.a => ⟨some nid, prev.b, prev.g⟩
          | some TermTag.b => ⟨prev.a, some nid, prev.g⟩
          | some TermTag.gnd => ⟨prev.a, prev.b, some nid⟩
          | none => prev
        (f.1, mapSet st.2 ip.2.ownerId prev2))
    (ufg, [])).2

/-- Rewrite document elements to net elements referencing node ids
(unresolved terminals fall back to `"gnd"`). -/
def rewriteElements (doc : CircuitDoc) (etn : List (String × TermTriple)) : List NetElem :=
  doc.elements.map (fun el =>
    let nodes := (mapGet etn el.id).getD ⟨none, none, none⟩
    if el.ty = ElType.GND then ⟨el.id, ElType.GND, el.name, nodes.g.getD "gnd", "", ""⟩
    else ⟨el.id, el.ty, el.name, nodes.a.getD "gnd", nodes.b.getD "gnd", el.value⟩)

/-- The non-ground node list of the net (id-assignment order). -/
def netNodesOf (ids : List (Nat × String)) (reps : List (Nat × PointF)) : List NetNode :=
  ids.foldl
    (fun l pr =>
      if pr.2 ≠ "gnd" then
        l ++ [⟨pr.2, ((mapGet reps pr.1).getD default).x, ((mapGet reps pr.1).getD default).y⟩]
      else l)
    []

/-- The display position of every node id. -/
def nodePointsOf (ids : List (Nat × String)) (reps : List (Nat × PointF)) :
    List (String × PointF) :=
  ids.foldl (fun m pr => mapSet m pr.2 ((mapGet reps pr.1).getD default)) []

/-- The three user-facing failure modes of `buildNet`, in source order. -/
inductive BuildErr
  | noElements | noGround | onlyGround
deriving DecidableEq

/-- A successful net build. -/
structure BuildOk where
  net : CircuitNet
  nodePoints : List (String × PointF)

/-- The clustering groups of a document. -/
def docGroups (doc : CircuitDoc) : List (Nat × List Nat) := ((clusterUF doc).groups).2

/-- The ground flags of a document's groups. -/
def docFlags (doc : CircuitDoc) : List (Nat × Bool) :=
  groupFlags (collectPoints doc) (docGroups doc)

/-- The group centroids of a document. -/
def docReps (doc : CircuitDoc) : List (Nat × PointF) :=
  groupReps (collectPoints doc) (docGroups doc)

/-- The node-identifier assignment of a document. -/
def docIds (doc : CircuitDoc) : List (Nat × String) := assignIds (docGroups doc) (docFlags doc)

/-- The non-ground node list the net builder produces for a document. -/
def docNodes (doc : CircuitDoc) : List NetNode := netNodesOf (docIds doc) (docReps doc)

/-- `buildNet(doc)` from `net.ts`. -/
def buildNet (doc : CircuitDoc) : Except BuildErr BuildOk :=
  if doc.elements.isEmpty then Except.error BuildErr.noElements
  else if !(doc.elements.any (fun e => e.ty = ElType.GND)) then Except.error BuildErr.noGround
  else
    let etn := elementNodeMap (collectPoints doc) ((clusterUF doc).groups).1 (docIds doc)
    let elements := rewriteElements doc etn
    let nodes := docNodes doc
    if nodes.isEmpty then Except.error BuildErr.onlyGround
    else Except.ok ⟨⟨nodes, true, elements⟩, nodePointsOf (docIds doc) (docReps doc)⟩


/-! ## Statement and proof support definitions -/

/-- Whether a net-build result is a failure. -/
def isErrB : Except BuildErr BuildOk → Bool
  | Except.error _ => true
  | Except.ok _ => false

instance : Inhabited PortReport := ⟨⟨cxNaN, cxNaN, cxNaN, none, none⟩⟩

/-- Extract a successful port report. -/
def portOk : PortOut → Option PortReport
  | PortOut.ok r => some r
  | _ => none

/-- Non-mutating root chase with explicit fuel. -/
def rootD : Nat → UF → Nat → Nat
  | 0, _, x => x
  | fuel + 1, uf, x =>
    let p := parentOf uf x
    if p = x then x else rootD fuel uf p

/-- The root of a point's class (fuel: the number of points). -/
def UF.root (uf : UF) (x : Nat) : Nat := rootD uf.parent.length uf x

/-- Iterated parent pointer. -/
def iterP (uf : UF) : Nat → Nat → Nat
  | 0, x => x
  | k + 1, x => iterP uf k (parentOf uf x)

/-- A node with a self-loop parent pointer: a class representative. -/
def isRoot (uf : UF) (x : Nat) : Prop := parentOf uf x = x

/-- One parent-pointer step between distinct nodes. -/
def Step (uf : UF) (u v : Nat) : Prop := parentOf uf u = v ∧ v ≠ u

/-- Reachability along parent pointers. -/
def Reaches (uf : UF) : Nat → Nat → Prop := Relation.ReflTransGen (Step uf)

/-- The union-find invariant: ranks and parents have the same length,
parents stay in range, and ranks strictly increase along non-trivial
parent pointers (hence parent chains are acyclic). -/
def UF.WF (uf : UF) : Prop :=
  uf.rank.length = uf.parent.length ∧
  (∀ x, x < uf.parent.length → parentOf uf x < uf.parent.length) ∧
  (∀ x, x < uf.parent.length → parentOf uf x ≠ x →
    uf.rank.getD x 0 < uf.rank.getD (parentOf uf x) 0)

/-- `1e-15`: a pivot magnitude that is positive yet below the `1e-14`
threshold of the specification. -/
def tinyPivot : Fr := ⟨1, 10 ^ 15, pow_pos (by decide) 15⟩

/-- `2.5` (volts). -/
def volt25 : Fr := ⟨5, 2, by decide⟩

/-- `0.0025` (amperes). -/
def amp25m : Fr := ⟨1, 400, by decide⟩

/-- The voltage-divider net of claim C3: `V1 = 5 V` from `n1` to `gnd`,
`R1 = 1 kΩ` from `n1` to `n2`, `R2 = 1 kΩ` from `n2` to `gnd`. -/
def dividerNet : CircuitNet :=
  { nodes := [⟨"n1", 0, 0⟩, ⟨"n2", 0, 0⟩]
    hasGround := true
    elements :=
      [⟨"V1", ElType.V, "V1", "n1", "gnd", "5"⟩,
       ⟨"R1", ElType.R, "R1", "n1", "n2", "1k"⟩,
       ⟨"R2", ElType.R, "R2", "n2", "gnd", "1k"⟩] }

/-- A net in which a GND element and a later resistor share the id `"x"`
(the `CircuitNet` type does not rule out duplicate ids): the resistor's
entries overwrite the GND element's zero entries. -/
def dupIdNet : CircuitNet :=
  { nodes := [⟨"n1", 0, 0⟩]
    hasGround := true
    elements :=
      [⟨"x", ElType.GND, "G1", "gnd", "", ""⟩,
       ⟨"y", ElType.I, "I1", "n1", "gnd", "1"⟩,
       ⟨"x", ElType.R, "R1", "n1", "gnd", "1"⟩] }

/-- The same circuit with pairwise-distinct element ids. -/
def gndIdNet : CircuitNet :=
  { nodes := [⟨"n1", 0, 0⟩]
    hasGround := true
    elements :=
      [⟨"g", ElType.GND, "G1", "gnd", "", ""⟩,
       ⟨"y", ElType.I, "I1", "n1", "gnd", "1"⟩,
       ⟨"r", ElType.R, "R1", "n1", "gnd", "1"⟩] }

/-- The chain document of claim C9: grid 10 (tolerance 6), terminals at
`(0,0)` and `(12,0)` — distance 12, beyond the tolerance — bridged by a
junction at `(6,0)`. -/
def chainDoc : CircuitDoc :=
  { grid := 10, freqHz := 0
    elements :=
      [⟨"r1", ElType.R, "R1", ⟨0, 0⟩, ⟨200, 0⟩, "1"⟩,
       ⟨"r2", ElType.R, "R2", ⟨12, 0⟩, ⟨200, 100⟩, "1"⟩]
    wires := []
    junctions := [⟨"j1", ⟨6, 0⟩⟩] }

/-- A two-element document (ground plus resistor) that builds successfully. -/
def simpleDoc : CircuitDoc :=
  { grid := 20, freqHz := 0
    elements :=
      [⟨"g1", ElType.GND, "GND1", ⟨0, 0⟩, ⟨0, 0⟩, ""⟩,
       ⟨"r1", ElType.R, "R1", ⟨0, 0⟩, ⟨100, 0⟩, "1k"⟩]
    wires := [], junctions := [] }

instance : Inhabited BuildOk := ⟨⟨⟨[], false, []⟩, []⟩⟩

/-- Invariant carried through the clustering folds: well-formedness and a
fixed number of points. -/
def UFInv (n : Nat) (uf : UF) : Prop := uf.WF ∧ uf.parent.length = n

/-- Classes only grow: equal roots stay equal. -/
def UFMono (uf uf2 : UF) : Prop := ∀ y z, uf.root y = uf.root z → uf2.root y = uf2.root z

/-- The body of the inner neighbour loop of `unionPass`, named for reasoning. -/
def upJoin (points : List PRef) (tol2 : Fr) (i : Nat) (pi : PointF) (uf : UF) (j : Nat) : UF :=
  if j ≤ i then uf
  else if fleb (dist2 pi (points.getD j default).p) tol2 then uf.union i j
  else uf

/-- The body of the outer point loop of `unionPass`, named for reasoning. -/
def upStep (points : List PRef) (tol2 cell : Fr)
    (buckets : List ((Int × Int) × List Nat)) (uf : UF) (ip : Nat × PRef) : UF :=
  let c := cellIdxOf cell ip.2.p
  (neighborsOf buckets c.1 c.2).foldl (upJoin points tol2 ip.1 ip.2.p) uf

/-! ### Semantics of `Fr` in `ℚ` -/

theorem Fr.den_cast_ne_zero (a : Fr) : ((a.den : ℚ) ≠ 0) := by
  exact_mod_cast a.dpos.ne'

theorem toQ_fneg (a : Fr) : (fneg a).toQ = -a.toQ := by
  simp [fneg, Fr.toQ, neg_div]

theorem toQ_fadd (a b : Fr) : (fadd a b).toQ = a.toQ + b.toQ := by
  have ha := a.den_cast_ne_zero
  have hb := b.den_cast_ne_zero
  simp only [fadd, Fr.toQ]
  push_cast
  field_simp

theorem toQ_fsub (a b : Fr) : (fsub a b).toQ = a.toQ - b.toQ := by
  rw [fsub, toQ_fadd, toQ_fneg]; ring

theorem toQ_fmul (a b : Fr) : (fmul a b).toQ = a.toQ * b.toQ := by
  simp only [fmul, Fr.toQ]
  push_cast
  rw [div_mul_div_comm]

theorem toQ_ofNat (n : Nat) : (OfNat.ofNat n : Fr).toQ = (n : ℚ) := by
  show ((n : ℤ) : ℚ) / ((1 : ℕ) : ℚ) = (n : ℚ)
  simp

theorem toQ_zero : (0 : Fr).toQ = 0 := by simpa using toQ_ofNat 0

theorem toQ_one : (1 : Fr).toQ = 1 := by simpa using toQ_ofNat 1

theorem toQ_ofInt (n : Int) : (Fr.ofInt n).toQ = (n : ℚ) := by
  simp [Fr.ofInt, Fr.toQ]

theorem toQ_fdiv0 (a b : Fr) (hb : b.num ≠ 0) : (fdiv0 a b).toQ = a.toQ / b.toQ := by
  have ha := a.den_cast_ne_zero
  have hbq : ((b.num : ℚ)) ≠ 0 := by exact_mod_cast hb
  have hbd := b.den_cast_ne_zero
  simp only [fdiv0, hb, dif_neg, not_false_iff, Fr.toQ]
  rcases Int.lt_or_lt_of_ne hb with h | h
  · have hs : b.num.sign = -1 := Int.sign_eq_neg_one_of_neg h
    have habsZ : ((b.num.natAbs : ℤ)) = -b.num := Int.ofNat_natAbs_of_nonpos h.le
    have habsQ : ((b.num.natAbs : ℚ)) = -(b.num : ℚ) := by
      rw [← Int.cast_natCast (R := ℚ), habsZ, Int.cast_neg]
    rw [hs]
    push_cast
    rw [habsQ]
    field_simp
  · have hs : b.num.sign = 1 := Int.sign_eq_one_of_pos h
    have habsZ : ((b.num.natAbs : ℤ)) = b.num := Int.natAbs_of_nonneg h.le
    have habsQ : ((b.num.natAbs : ℚ)) = (b.num : ℚ) := by
      rw [← Int.cast_natCast (R := ℚ), habsZ]
    rw [hs]
    push_cast
    rw [habsQ]
    field_simp

theorem fltb_iff (a b : Fr) : fltb a b = true ↔ a.toQ < b.toQ := by
  have ha : (0:ℚ) < (a.den : ℚ) := by exact_mod_cast a.dpos
  have hb : (0:ℚ) < (b.den : ℚ) := by exact_mod_cast b.dpos
  rw [fltb, decide_eq_true_eq, Fr.toQ, Fr.toQ, div_lt_div_iff ha hb]
  exact_mod_cast Iff.rfl

theorem fleb_iff (a b : Fr) : fleb a b = true ↔ a.toQ ≤ b.toQ := by
  have ha : (0:ℚ) < (a.den : ℚ) := by exact_mod_cast a.dpos
  have hb : (0:ℚ) < (b.den : ℚ) := by exact_mod_cast b.dpos
  rw [fleb, decide_eq_true_eq, Fr.toQ, Fr.toQ, div_le_div_iff ha hb]
  exact_mod_cast Iff.rfl

theorem feqb_iff (a b : Fr) : feqb a b = true ↔ a.toQ = b.toQ := by
  have ha : ((a.den : ℚ)) ≠ 0 := a.den_cast_ne_zero
  have hb : ((b.den : ℚ)) ≠ 0 := b.den_cast_ne_zero
  rw [feqb, decide_eq_true_eq, Fr.toQ, Fr.toQ, div_eq_div_iff ha hb]
  exact_mod_cast Iff.rfl

theorem floorF_eq (a : Fr) : floorF a = ⌊a.toQ⌋ := by
  rw [floorF, Fr.toQ, Rat.floor_intCast_div_natCast]

theorem toQ_fmax (a b : Fr) : (fmax a b).toQ = max a.toQ b.toQ := by
  rw [fmax]
  by_cases h : fltb a b = true
  · rw [if_pos h, max_eq_right (le_of_lt ((fltb_iff a b).mp h))]
  · have := (not_congr (fltb_iff a b)).mp (by simpa using h)
    rw [if_neg (by simpa using h), max_eq_left (not_lt.mp this)]

/-! ## General helper lemmas -/

theorem Fr.toQ_eq_zero_iff (a : Fr) : a.toQ = 0 ↔ a.num = 0 := by
  rw [Fr.toQ, div_eq_zero_iff]
  constructor
  · rintro (h | h)
    · exact_mod_cast h
    · exact absurd h a.den_cast_ne_zero
  · intro h
    exact Or.inl (by exact_mod_cast h)

theorem mathPI_pos : 0 < mathPI.toQ := by norm_num [mathPI, Fr.toQ]

theorem nleb_ngtb (a b : JsNum) (h : nleb a b = true) : ngtb a b = false := by
  cases a with
  | none => simp [nleb] at h
  | some r =>
    cases b with
    | none => simp [nleb] at h
    | some s =>
      simp only [nleb] at h
      simp only [ngtb, nltb]
      apply Bool.eq_false_iff.mpr
      intro hlt
      have h1 := (fleb_iff r s).mp h
      have h2 := (fltb_iff s r).mp hlt
      exact absurd (lt_of_le_of_lt h1 h2) (lt_irrefl _)

theorem dropWhile_idem (p : Char → Bool) (l : List Char) :
    List.dropWhile p (List.dropWhile p l) = List.dropWhile p l := by
  induction l with
  | nil => rfl
  | cons c t ih =>
    by_cases h : p c
    · simp [List.dropWhile_cons, h, ih]
    · simp [List.dropWhile_cons, h]

theorem dropWhile_head_not (p : Char → Bool) (l : List Char) (c : Char) (t : List Char)
    (h : List.dropWhile p l = c :: t) : p c = false := by
  induction l with
  | nil => simp at h
  | cons a l ih =>
    by_cases ha : p a
    · rw [List.dropWhile_cons, if_pos ha] at h
      exact ih h
    · rw [List.dropWhile_cons, if_neg ha] at h
      cases h
      exact Bool.eq_false_iff.mpr ha

theorem trimWS_idem (l : List Char) : trimWS (trimWS l) = trimWS l := by
  unfold trimWS
  set A := List.dropWhile isWS l with hA
  set B := (List.dropWhile isWS A.reverse).reverse with hB
  have hBA : B <+: A := by
    rw [hB]
    have hs : List.dropWhile isWS A.reverse <:+ A.reverse := List.dropWhile_suffix _
    have hp := List.reverse_prefix.mpr hs
    rwa [List.reverse_reverse] at hp
  have hfront : List.dropWhile isWS B = B := by
    cases hBc : B with
    | nil => rfl
    | cons b bs =>
      apply List.dropWhile_eq_self_iff.mpr
      intro hl
      obtain ⟨t, ht⟩ := hBA
      rw [hBc] at ht
      have hAc : A = b :: (bs ++ t) := by rw [← ht]; rfl
      have : isWS b = false := dropWhile_head_not isWS l b (bs ++ t) (by rw [← hA, hAc])
      simp [hBc, this]
  rw [hfront, hB, List.reverse_reverse, dropWhile_idem]

theorem looksComplex_trim (v : String) :
    looksComplex (String.mk (trimWS v.data)) = looksComplex v := by
  simp only [looksComplex]
  rw [trimWS_idem]

theorem parseRealWithSI_trim (v : String) :
    parseRealWithSI (String.mk (trimWS v.data)) = parseRealWithSI v := by
  simp only [parseRealWithSI]
  rw [trimWS_idem]

theorem stripAllWS_map (f : Char → Char) (hf : ∀ c, isWS (f c) = isWS c) (l : List Char) :
    stripAllWS (l.map f) = (stripAllWS l).map f := by
  induction l with
  | nil => rfl
  | cons c t ih =>
    simp only [stripAllWS, List.map_cons, List.filter_cons] at ih ⊢
    rw [hf c]
    cases h : (!isWS c) <;> simp [h, ih]

theorem mapJtoI_map_itoj (l : List Char) :
    mapJtoI (l.map (fun c => if c = 'i' then 'j' else c)) = mapJtoI l := by
  simp only [mapJtoI, List.map_map]
  apply List.map_congr_left
  intro c _
  by_cases h : c = 'i'
  · subst h; simp
  · simp [h]

theorem recSet_self (r : Rec) (k : String) (v : Cx) : recSet r k v k = some v := by
  simp [recSet]

theorem recSet_ne (r : Rec) (k q : String) (v : Cx) (h : q ≠ k) : recSet r k v q = r q := by
  simp [recSet, h]

theorem extractElem_some (f : Fr) (nv vc : Rec) (st : Rec × Rec × Rec) (e : NetElem) (k : String)
    (h : ((st.1 k).isSome = true ∧ (st.2.1 k).isSome = true ∧ (st.2.2 k).isSome = true) ∨ k = e.id) :
    ((extractElem f nv vc st e).1 k).isSome = true ∧
    ((extractElem f nv vc st e).2.1 k).isSome = true ∧
    ((extractElem f nv vc st e).2.2 k).isSome = true := by
  by_cases hk : k = e.id
  · subst hk
    simp only [extractElem]
    split_ifs <;> simp [recSet_self]
  · rcases h with ⟨h1, h2, h3⟩ | h
    · simp only [extractElem]
      split_ifs <;> simp [recSet_ne _ _ _ _ hk, h1, h2, h3]
    · exact absurd h hk

theorem extractElem_other (f : Fr) (nv vc : Rec) (st : Rec × Rec × Rec) (e : NetElem) (k : String)
    (h : k ≠ e.id) :
    (extractElem f nv vc st e).1 k = st.1 k ∧
    (extractElem f nv vc st e).2.1 k = st.2.1 k ∧
    (extractElem f nv vc st e).2.2 k = st.2.2 k := by
  simp only [extractElem]
  split_ifs <;> simp [recSet_ne _ _ _ _ h]

theorem extract_fold_mono (f : Fr) (nv vc : Rec) (l : List NetElem) (st : Rec × Rec × Rec)
    (k : String)
    (h : (st.1 k).isSome = true ∧ (st.2.1 k).isSome = true ∧ (st.2.2 k).isSome = true) :
    ((l.foldl (extractElem f nv vc) st).1 k).isSome = true ∧
    ((l.foldl (extractElem f nv vc) st).2.1 k).isSome = true ∧
    ((l.foldl (extractElem f nv vc) st).2.2 k).isSome = true := by
  induction l generalizing st with
  | nil => exact h
  | cons a t ih => exact ih _ (extractElem_some f nv vc st a k (Or.inl h))

theorem extract_fold_some (f : Fr) (nv vc : Rec) (l : List NetElem) (st : Rec × Rec × Rec)
    (e : NetElem) (he : e ∈ l) :
    ((l.foldl (extractElem f nv vc) st).1 e.id).isSome = true ∧
    ((l.foldl (extractElem f nv vc) st).2.1 e.id).isSome = true ∧
    ((l.foldl (extractElem f nv vc) st).2.2 e.id).isSome = true := by
  induction l generalizing st with
  | nil => cases he
  | cons a t ih =>
    rcases List.mem_cons.mp he with rfl | he2
    · exact extract_fold_mono f nv vc t _ e.id (extractElem_some f nv vc st e e.id (Or.inr rfl))
    · exact ih _ he2

theorem extract_fold_other (f : Fr) (nv vc : Rec) (l : List NetElem) (st : Rec × Rec × Rec)
    (k : String) (h : ∀ x ∈ l, x.id ≠ k) :
    (l.foldl (extractElem f nv vc) st).1 k = st.1 k ∧
    (l.foldl (extractElem f nv vc) st).2.1 k = st.2.1 k ∧
    (l.foldl (extractElem f nv vc) st).2.2 k = st.2.2 k := by
  induction l generalizing st with
  | nil => exact ⟨rfl, rfl, rfl⟩
  | cons a t ih =>
    have ha : k ≠ a.id := fun hk => (h a (List.mem_cons_self a t)) hk.symm
    have hs := extractElem_other f nv vc st a k ha
    have ht := ih (extractElem f nv vc st a) (fun x hx => h x (List.mem_cons_of_mem a hx))
    exact ⟨ht.1.trans hs.1, ht.2.1.trans hs.2.1, ht.2.2.trans hs.2.2⟩

theorem extractElem_gnd (f : Fr) (nv vc : Rec) (st : Rec × Rec × Rec) (e : NetElem)
    (hg : e.ty = ElType.GND) :
    (extractElem f nv vc st e).1 e.id = some (cxF 0 0) ∧
    (extractElem f nv vc st e).2.1 e.id = some (cxF 0 0) ∧
    (extractElem f nv vc st e).2.2 e.id = some (cxF 0 0) := by
  simp only [extractElem, hg, if_pos]
  exact ⟨recSet_self _ _ _, recSet_self _ _ _, recSet_self _ _ _⟩

theorem extract_fold_gnd (f : Fr) (nv vc : Rec) (l : List NetElem) (st : Rec × Rec × Rec)
    (e : NetElem) (he : e ∈ l) (hg : e.ty = ElType.GND)
    (hnd : (l.map (fun x => x.id)).Nodup) :
    (l.foldl (extractElem f nv vc) st).1 e.id = some (cxF 0 0) ∧
    (l.foldl (extractElem f nv vc) st).2.1 e.id = some (cxF 0 0) ∧
    (l.foldl (extractElem f nv vc) st).2.2 e.id = some (cxF 0 0) := by
  induction l generalizing st with
  | nil => cases he
  | cons a t ih =>
    have hnd2 : (∀ x ∈ t, ¬x.id = a.id) ∧ (List.map (fun x => x.id) t).Nodup := by
      simpa using hnd
    rcases List.mem_cons.mp he with rfl | he2
    · have hother : ∀ x ∈ t, x.id ≠ e.id := fun x hx => hnd2.1 x hx
      have hstep := extractElem_gnd f nv vc st e hg
      have hrest := extract_fold_other f nv vc t (extractElem f nv vc st e) e.id hother
      exact ⟨hrest.1.trans hstep.1, hrest.2.1.trans hstep.2.1, hrest.2.2.trans hstep.2.2⟩
    · exact ih _ he2 hnd2.2

theorem elimStep_isNone (n : Nat) (s : List (List Cx) × List Cx) (k : Nat) :
    (elimStep n s k).isNone = badPivot n k s := by
  rw [badPivot]
  simp only [elimStep]
  by_cases h : (neqb (pivotScan s.1 k n).2 (fin 0) || !nfinite (pivotScan s.1 k n).2) = true
  · rw [if_pos h, h]
    rfl
  · rw [if_neg h, Bool.eq_false_iff.mpr h]
    rfl

theorem elimTrace_succ (n : Nat) (A : List (List Cx)) (z : List Cx) (k : Nat) :
    elimTrace n A z (k + 1) =
      match elimTrace n A z k with
      | none => none
      | some s => elimStep n s k := by
  rw [elimTrace, elimTrace, List.range_succ, List.foldl_append, List.foldl_cons, List.foldl_nil]

theorem elimTrace_isNone_iff (n : Nat) (A : List (List Cx)) (z : List Cx) :
    ∀ m, (elimTrace n A z m).isNone = true ↔
      ∃ k, k < m ∧ ∃ s, elimTrace n A z k = some s ∧ badPivot n k s = true := by
  intro m
  induction m with
  | zero =>
    constructor
    · intro h
      exact absurd h (by simp [elimTrace])
    · rintro ⟨k, hk, _⟩
      omega
  | succ m ih =>
    rw [elimTrace_succ]
    cases htr : elimTrace n A z m with
    | none =>
      constructor
      · intro _
        obtain ⟨k, hk, s, hs, hbad⟩ := ih.mp (by rw [htr]; rfl)
        exact ⟨k, by omega, s, hs, hbad⟩
      · intro _
        rfl
    | some s =>
      constructor
      · intro h
        have h2 : (elimStep n s m).isNone = true := h
        rw [elimStep_isNone] at h2
        exact ⟨m, by omega, s, htr, h2⟩
      · rintro ⟨k, hk, s2, hs2, hbad⟩
        rcases Nat.lt_succ_iff_lt_or_eq.mp hk with hk2 | hk2
        · exfalso
          have h3 : (elimTrace n A z m).isNone = true := ih.mpr ⟨k, hk2, s2, hs2, hbad⟩
          rw [htr] at h3
          exact absurd h3 (by simp)
        · subst hk2
          rw [htr] at hs2
          cases hs2
          show (elimStep n s k).isNone = true
          rw [elimStep_isNone]
          exact hbad

theorem solveLinear_isNone_eq (Ain : List (List Cx)) (zin : List Cx) :
    (solveLinear Ain zin).isNone = (forwardElim Ain.length Ain zin).isNone := by
  simp only [solveLinear]
  cases h : forwardElim Ain.length Ain zin with
  | none => rfl
  | some s => rfl

theorem gjStep_isNone (n : Nat) (s : List (List Cx) × List Cx) (k : Nat) :
    (gjStep n s k).isNone = smallPivot n k s := by
  rw [smallPivot]
  simp only [gjStep]
  by_cases h : nltb (pivotScan s.1 k n).2 (fin EPS2cx) = true
  · rw [if_pos h, h]
    rfl
  · rw [if_neg h, Bool.eq_false_iff.mpr h]
    rfl

theorem gjTrace_succ (n : Nat) (A : List (List Cx)) (b : List Cx) (k : Nat) :
    gjTrace n A b (k + 1) =
      match gjTrace n A b k with
      | none => none
      | some s => gjStep n s k := by
  rw [gjTrace, gjTrace, List.range_succ, List.foldl_append, List.foldl_cons, List.foldl_nil]

theorem gjTrace_none_add (n : Nat) (A : List (List Cx)) (b : List Cx) (m : Nat)
    (h : gjTrace n A b m = none) : ∀ d, gjTrace n A b (m + d) = none := by
  intro d
  induction d with
  | zero => exact h
  | succ d ih =>
    rw [Nat.add_succ, gjTrace_succ, ih]

theorem gjTrace_none_mono (n : Nat) (A : List (List Cx)) (b : List Cx) (m m2 : Nat)
    (hle : m ≤ m2) (h : gjTrace n A b m = none) : gjTrace n A b m2 = none := by
  rw [show m2 = m + (m2 - m) by omega]
  exact gjTrace_none_add n A b m h (m2 - m)

theorem solveLinearSystemCx_singular (Ain : List (List Cx)) (bin : List Cx)
    (h0 : Ain.length ≠ 0) (hsq : (Ain.getD 0 []).length = Ain.length)
    (hlen : bin.length = Ain.length)
    (htr : gjTrace Ain.length Ain bin Ain.length = none) :
    solveLinearSystemCx Ain bin = Except.error GErr.singular := by
  simp only [solveLinearSystemCx]
  rw [if_neg h0, if_neg (by omega), if_neg (by omega)]
  rw [gjTrace] at htr
  rw [htr]

/-! ## Claim C1 — the pivot threshold of `solveMNA`'s solver -/

/-- C1 counterexample: a 1×1 system whose pivot magnitude `1e-15` is
positive but below `1e-14` (its square `1e-30` is below `EPS2cx = 1e-28`);
the claim says the solve used by `solveMNA` must report singularity, yet
`solveLinear` returns a result. -/
theorem c1_counterexample :
    fltb 0 (fmul tinyPivot tinyPivot) = true ∧
    fltb (fmul tinyPivot tinyPivot) EPS2cx = true ∧
    (solveLinear [[cxF tinyPivot 0]] [cxF 1 0]).isSome = true := by
  refine ⟨by decide, by decide, by decide⟩

/-- C1 amended (general): for every system, `solveLinear` — the eliminator
`solveMNA` actually calls — reports the singular-matrix failure exactly when
at some column of its forward elimination the selected pivot's squared
magnitude is exactly zero or non-finite; it has no `1e-14` threshold.  The
`1e-14` threshold belongs to `solveLinearSystemCx` of `gaussCx.ts` (which
`solveMNA` does not call): any column whose best pivot magnitude falls below
`1e-14` makes it report the singular-matrix error. -/
theorem c1_theorem (Ain : List (List Cx)) (zin : List Cx) :
    ((solveLinear Ain zin).isNone = true ↔
      ∃ k, k < Ain.length ∧ ∃ s, elimTrace Ain.length Ain zin k = some s ∧
        badPivot Ain.length k s = true) ∧
    (∀ (bin : List Cx) (k : Nat) (s : List (List Cx) × List Cx),
      k < Ain.length → gjTrace Ain.length Ain bin k = some s →
      smallPivot Ain.length k s = true →
      Ain.length ≠ 0 → (Ain.getD 0 []).length = Ain.length →
      bin.length = Ain.length →
      solveLinearSystemCx Ain bin = Except.error GErr.singular) := by
  constructor
  · rw [solveLinear_isNone_eq]
    exact elimTrace_isNone_iff Ain.length Ain zin Ain.length
  · intro bin k s hk hs hsmall h0 hsq hlen
    apply solveLinearSystemCx_singular Ain bin h0 hsq hlen
    have h1 : gjTrace Ain.length Ain bin (k + 1) = none := by
      rw [gjTrace_succ, hs]
      show gjStep Ain.length s k = none
      exact Option.isNone_iff_eq_none.mp (by rw [gjStep_isNone]; exact hsmall)
    exact gjTrace_none_mono Ain.length Ain bin (k + 1) Ain.length (by omega) h1

/-- Witness for C1 at the concrete 1×1 system with pivot `1e-15`: its
Gauss–Jordan trace at column 0 has a best pivot below `1e-14`, so
`solveLinearSystemCx` reports the singular-matrix error there, while
`solveLinear` succeeds on it (`c1_counterexample`). -/
theorem c1_theorem_witness :
    (0 < 1 ∧
     gjTrace 1 [[cxF tinyPivot 0]] [cxF 1 0] 0 = some ([[cxF tinyPivot 0]], [cxF 1 0]) ∧
     smallPivot 1 0 ([[cxF tinyPivot 0]], [cxF 1 0]) = true) ∧
    solveLinearSystemCx [[cxF tinyPivot 0]] [cxF 1 0] = Except.error GErr.singular :=
  ⟨⟨by decide, rfl, by decide⟩,
   (c1_theorem [[cxF tinyPivot 0]] [cxF 1 0]).2 [cxF 1 0] 0
     ([[cxF tinyPivot 0]], [cxF 1 0]) (by decide) rfl (by decide) (by decide)
     (by decide) (by decide)⟩

/-! ## Claim C2 — non-finite solutions after successful elimination -/

/-- C2 counterexample: a system on which `solveLinear`'s elimination
succeeds (pivots `1` and `1`) while back substitution produces a non-finite
unknown (`x₀ = (0 − NaN·1)/1 = NaN`); the claim says `solveMNA`'s linear
solve must reject it, yet `solveLinear` returns `ok`. -/
theorem c2_counterexample :
    (solveLinear [[cxF 1 0, cxNaN], [cxF 0 0, cxF 1 0]] [cxF 0 0, cxF 1 0]).isSome = true ∧
    (match solveLinear [[cxF 1 0, cxNaN], [cxF 0 0, cxF 1 0]] [cxF 0 0, cxF 1 0] with
     | some x => x.any (fun v => !isFiniteCx v)
     | none => false) = true := by
  refine ⟨by decide, by decide⟩

/-- C2 amended: the non-finite-solution rejection belongs to
`solveLinearSystemCx` of `gaussCx.ts` (whenever it returns `ok`, every
unknown is finite); `solveLinear`, the solver `solveMNA` actually calls,
performs no such check. -/
theorem c2_theorem (A : List (List Cx)) (b x : List Cx)
    (h : solveLinearSystemCx A b = Except.ok x) :
    ∀ v ∈ x, isFiniteCx v = true := by
  intro v hv
  simp only [solveLinearSystemCx] at h
  split at h
  · exact absurd h (by simp)
  · split at h
    · exact absurd h (by simp)
    · split at h
      · exact absurd h (by simp)
      · split at h
        · exact absurd h (by simp)
        · rename_i s hany
          split at h
          · exact absurd h (by simp)
          · rename_i hfin
            cases h
            have := List.any_eq_false.mp (Bool.eq_false_iff.mpr hfin) v hv
            simpa using this

/-- Witness for C2 on a concrete solvable system. -/
theorem c2_theorem_witness :
    solveLinearSystemCx [[cxF 1 0]] [cxF 1 0] = Except.ok [cxF 1 0] ∧
    isFiniteCx (cxF 1 0) = true :=
  ⟨rfl, c2_theorem [[cxF 1 0]] [cxF 1 0] [cxF 1 0] rfl (cxF 1 0) (by simp)⟩

/-! ## Claim C3 — the voltage-divider scenario -/

/-- C3: on the voltage divider (`V1 = 5 V` from `n1` to `gnd`, `R1 = R2 =
1 kΩ`), `solveMNA` at frequency 0 succeeds with exactly `V(n2) = 2.5`,
`I(R1) = I(R2) = 0.0025` and `I(V1) = −0.0025` (exact equality in the
exact-arithmetic model, hence within the claimed `1e-9` tolerance). -/
theorem c3_theorem :
    (match solveMNA dividerNet 0 with
     | some r =>
       ceqb ((r.nodeVoltages "n2").getD cxNaN) (cxF volt25 0) &&
       ceqb ((r.elementCurrents "R1").getD cxNaN) (cxF amp25m 0) &&
       ceqb ((r.elementCurrents "R2").getD cxNaN) (cxF amp25m 0) &&
       ceqb ((r.elementCurrents "V1").getD cxNaN) (cxF (fneg amp25m) 0)
     | none => false) = true := by decide

/-! ## Claim C5 — the port (Thevenin/Norton) analysis -/

/-- C5: when the port analysis succeeds, its source-killed net is exactly
the base net with every `V` and `I` value set to `"0"` plus one unit test
current source with terminal `a` = port node B and terminal `b` = port node
A; `Zth` is `V(A) − V(B)` of that solve; and the maximum-power figure
`|Vth|²/(4·Re Zth)` is reported (finite) only when `Re Zth > 0`, never when
`Re Zth ≤ 0`. -/
theorem c5_theorem (net : CircuitNet) (f : Fr) (a b : String) (loadId : Option String)
    (rep : PortReport) (h : portAnalysis net f a b loadId = PortOut.ok rep) :
    (killSources (removeLoad net.elements loadId) =
      (removeLoad net.elements loadId).map (fun e =>
        if e.ty = ElType.V ∨ e.ty = ElType.I then { e with value := "0" } else e)) ∧
    (withTestSource (killSources (removeLoad net.elements loadId)) a b =
      killSources (removeLoad net.elements loadId) ++
        [⟨"I_TEST", ElType.I, "I_TEST", b, a, "1"⟩]) ∧
    (∃ resZ, solveMNA ⟨net.nodes, net.hasGround,
        withTestSource (killSources (removeLoad net.elements loadId)) a b⟩ f = some resZ ∧
      rep.zth = csub ((resZ.nodeVoltages a).getD (cxF 0 0)) ((resZ.nodeVoltages b).getD (cxF 0 0)) ∧
      rep.rth = rep.zth.re ∧ rep.zlopt = cconj rep.zth) ∧
    (nfinite rep.pmax = true → ngtb rep.rth (fin 0) = true) ∧
    (nleb rep.rth (fin 0) = true → nfinite rep.pmax = false) ∧
    (ngtb rep.rth (fin 0) = true → rep.pmax = ndiv (cabs2 rep.vth) (nmul (fin 4) rep.rth)) := by
  refine ⟨?_, rfl, ?_⟩
  · simp only [killSources]
    apply List.map_congr_left
    intro e _
    by_cases h1 : e.ty = ElType.V
    · simp [h1]
    · by_cases h2 : e.ty = ElType.I <;> simp [h1, h2]
  · simp only [portAnalysis] at h
    split at h
    · exact absurd h (by simp)
    · split at h
      · exact absurd h (by simp)
      · rename_i resV hV
        split at h
        · exact absurd h (by simp)
        · rename_i resZ hZ
          cases h
          refine ⟨⟨resZ, hZ, rfl, rfl, rfl⟩, ?_, ?_, ?_⟩
          · intro hfin
            by_cases hgt : ngtb (csub ((resZ.nodeVoltages a).getD (cxF 0 0))
                ((resZ.nodeVoltages b).getD (cxF 0 0))).re (fin 0) = true
            · exact hgt
            · simp only [Bool.eq_false_iff.mpr hgt, if_neg, Bool.false_eq_true] at hfin
              simp [nfinite] at hfin
          · intro hle
            have hgt := nleb_ngtb _ _ hle
            simp only [hgt, Bool.false_eq_true, if_neg]
            rfl
          · intro hgt
            simp only [hgt, if_pos]

/-- Witness for C5: the divider port `(n2, gnd)` with `R2` as the declared
load (`Zth = 1000 Ω`, so the maximum-power formula applies). -/
theorem c5_theorem_witness :
    ∃ rep, portAnalysis dividerNet 0 "n2" "gnd" (some "R2") = PortOut.ok rep ∧
      (ngtb rep.rth (fin 0) = true → rep.pmax = ndiv (cabs2 rep.vth) (nmul (fin 4) rep.rth)) ∧
      ngtb rep.rth (fin 0) = true := by
  have hrep : portAnalysis dividerNet 0 "n2" "gnd" (some "R2") =
      PortOut.ok ((portOk (portAnalysis dividerNet 0 "n2" "gnd" (some "R2"))).getD default) := rfl
  exact ⟨_, hrep, (c5_theorem _ _ _ _ _ _ hrep).2.2.2.2.2, by decide⟩

/-! ## Claim C6 — `i`/`j` interchangeability of value parsing -/

/-- C6 counterexample: `parseValueAsCx` treats only `j` as signalling a
complex value, so the pure-imaginary input with marker `i` parses as an
invalid real (`NaN`) while its `j` form parses as `2j`. -/
theorem c6_counterexample :
    mapItoJ "2i" = "2j" ∧
    isFiniteCx (parseValueAsCx "2i") = false ∧
    isFiniteCx (parseValueAsCx "2j") = true ∧
    ceqb (parseValueAsCx "2j") (cxF 0 2) = true := by
  refine ⟨rfl, by decide, by decide, by decide⟩

/-- C6 amended: the `i`/`j` interchangeability holds for the `parseCx`
grammar (for every string, replacing every `i` by `j` parses identically),
but not for the element-value path `parseValueAsCx`. -/
theorem c6_theorem (s : String) : parseCxQ (mapItoJ s) = parseCxQ s := by
  have hf : ∀ c, isWS ((fun c => if c = 'i' then 'j' else c) c) = isWS c := by
    intro c
    by_cases h : c = 'i'
    · subst h; rfl
    · simp [h]
  show parseCxQ ⟨s.data.map _⟩ = parseCxQ s
  unfold parseCxQ
  rw [show (String.mk (s.data.map fun c => if c = 'i' then 'j' else c)).data =
        s.data.map (fun c => if c = 'i' then 'j' else c) from rfl,
      stripAllWS_map _ hf s.data]
  by_cases h : (stripAllWS s.data).isEmpty
  · have h2 : stripAllWS s.data = [] := List.isEmpty_iff.mp h
    simp [h2]
  · simp only [List.isEmpty_iff] at h
    have hmap : ((stripAllWS s.data).map (fun c => if c = 'i' then 'j' else c)).isEmpty = false := by
      simp [List.isEmpty_iff, h]
    simp only [hmap, List.isEmpty_iff, Bool.false_eq_true, if_neg, h,
      mapJtoI_map_itoj]

/-! ## Claim C7 — the SI suffix multipliers -/

/-- C7 counterexample: `parseRealWithSI` lowercases the suffix before the
table lookup, so `"1M"` parses to `1e-3` (milli), not to the claimed
`1e6`. -/
theorem c7_counterexample :
    neqb (parseRealWithSI "1M") (some ⟨1, 1000, by decide⟩) = true ∧
    neqb (parseRealWithSI "1M") (some (Fr.ofInt 1000000)) = false := by decide

/-- C7 amended: the actual multiplier tables.  In `parseRealWithSI` the
suffix is fully case-insensitive: `p/n/u/k/g` (either case) give
`1e-12/1e-9/1e-6/1e3/1e9`, both `m` and `M` are milli, and only the literal
suffix `meg` is mega.  In `parseCx`, uppercase `M` is mega, lowercase `m` is
milli, and neither `g` nor `meg` is accepted at all. -/
theorem c7_theorem :
    (neqb (parseRealWithSI "1p") (some ⟨1, 1000000000000, by decide⟩) = true) ∧
    (neqb (parseRealWithSI "1n") (some ⟨1, 1000000000, by decide⟩) = true) ∧
    (neqb (parseRealWithSI "1u") (some ⟨1, 1000000, by decide⟩) = true) ∧
    (neqb (parseRealWithSI "1m") (some ⟨1, 1000, by decide⟩) = true) ∧
    (neqb (parseRealWithSI "1M") (some ⟨1, 1000, by decide⟩) = true) ∧
    (neqb (parseRealWithSI "1k") (some (Fr.ofInt 1000)) = true) ∧
    (neqb (parseRealWithSI "1K") (some (Fr.ofInt 1000)) = true) ∧
    (neqb (parseRealWithSI "1meg") (some (Fr.ofInt 1000000)) = true) ∧
    (neqb (parseRealWithSI "1MEG") (some (Fr.ofInt 1000000)) = true) ∧
    (neqb (parseRealWithSI "1g") (some (Fr.ofInt 1000000000)) = true) ∧
    (neqb (parseRealWithSI "1G") (some (Fr.ofInt 1000000000)) = true) ∧
    (parseCxQ "1M" = some (Fr.ofInt 1000000, 0)) ∧
    (parseCxQ "1m" = some (⟨1, 1000, by decide⟩, 0)) ∧
    (parseCxQ "1k" = some (Fr.ofInt 1000, 0)) ∧
    (parseCxQ "1g" = none) ∧
    (parseCxQ "1meg" = none) := by
  refine ⟨by decide, by decide, by decide, by decide, by decide, by decide, by decide,
    by decide, by decide, by decide, by decide, rfl, rfl, rfl, rfl, rfl⟩

/-! ## Claim C8 — capacitor/inductor impedance model -/

/-- C8: for a `C`/`L` element whose value is non-complex and parses to a
finite number `x`, the impedance at frequency 0 is exactly the real
constant `1e18` (C) resp. `1e-12` (L) — neither an infinity nor zero — and
at frequency `f > 0` it is `−j/(2πf·x)` (for `x ≠ 0`) resp. `j·2πf·x`,
where `π` is the double value of `Math.PI`. -/
theorem c8_theorem (v : String) (x f : Fr)
    (hc : looksComplex v = false) (hx : parseRealWithSI v = some x) :
    elementImpedance ElType.C v 0 = cxF dcOpenC 0 ∧
    elementImpedance ElType.L v 0 = cxF dcShortL 0 ∧
    dcOpenC.toQ = 1000000000000000000 ∧
    dcShortL.toQ = 1 / 1000000000000 ∧
    (0 < f.toQ → x.toQ ≠ 0 →
      ∃ zim : Fr, elementImpedance ElType.C v f = ⟨some 0, some zim⟩ ∧
        zim.toQ = -1 / (2 * mathPI.toQ * f.toQ * x.toQ)) ∧
    (0 < f.toQ →
      ∃ zim : Fr, elementImpedance ElType.L v f = ⟨some 0, some zim⟩ ∧
        zim.toQ = 2 * mathPI.toQ * f.toQ * x.toQ) := by
  have hcT := looksComplex_trim v
  have hxT := parseRealWithSI_trim v
  rw [hc] at hcT
  rw [hx] at hxT
  refine ⟨?_, ?_, ?_, ?_, ?_, ?_⟩
  · simp only [elementImpedance, hcT, hxT]
    simp [show feqb (fmul (fmul 2 mathPI) (fmax 0 0)) 0 = true from by decide]
  · simp only [elementImpedance, hcT, hxT]
    simp [show feqb (fmul (fmul 2 mathPI) (fmax 0 0)) 0 = true from by decide]
  · norm_num [dcOpenC, Fr.ofInt, Fr.toQ]
  · norm_num [dcShortL, Fr.toQ]
  · intro hf hx0
    have hltb : fltb 0 f = true := (fltb_iff 0 f).mpr (by rwa [toQ_zero])
    have hmax : fmax 0 f = f := by rw [fmax, hltb]; rfl
    have hwQ : (fmul (fmul 2 mathPI) f).toQ = 2 * mathPI.toQ * f.toQ := by
      rw [toQ_fmul, toQ_fmul, toQ_ofNat]; norm_num
    have hpi := mathPI_pos
    have hwne : feqb (fmul (fmul 2 mathPI) f) 0 = false := by
      apply Bool.eq_false_iff.mpr
      intro h
      have h2 := (feqb_iff _ _).mp h
      rw [toQ_zero, hwQ] at h2
      have : (0:ℚ) < 2 * mathPI.toQ * f.toQ := by positivity
      exact absurd h2 this.ne'
    have hwxQ : (fmul (fmul (fmul 2 mathPI) f) x).toQ = 2 * mathPI.toQ * f.toQ * x.toQ := by
      rw [toQ_fmul, hwQ]
    have hwxne : (fmul (fmul (fmul 2 mathPI) f) x).num ≠ 0 := by
      intro h
      have hz : (fmul (fmul (fmul 2 mathPI) f) x).toQ = 0 := (Fr.toQ_eq_zero_iff _).mpr h
      rw [hwxQ] at hz
      rcases mul_eq_zero.mp hz with h2 | h2
      · have : (0:ℚ) < 2 * mathPI.toQ * f.toQ := by positivity
        exact absurd h2 this.ne'
      · exact absurd h2 hx0
    have hwxb : feqb (fmul (fmul (fmul 2 mathPI) f) x) 0 = false := by
      apply Bool.eq_false_iff.mpr
      intro h
      have h2 := (feqb_iff _ _).mp h
      rw [toQ_zero] at h2
      exact hwxne ((Fr.toQ_eq_zero_iff _).mp h2)
    refine ⟨fdiv0 (fneg 1) (fmul (fmul (fmul 2 mathPI) f) x), ?_, ?_⟩
    · simp only [elementImpedance, hcT, hxT, hmax, hwne, ndiv, hwxb]
      simp
    · rw [toQ_fdiv0 _ _ hwxne, toQ_fneg, toQ_one, hwxQ]
  · intro hf
    have hltb : fltb 0 f = true := (fltb_iff 0 f).mpr (by rwa [toQ_zero])
    have hmax : fmax 0 f = f := by rw [fmax, hltb]; rfl
    have hwQ : (fmul (fmul 2 mathPI) f).toQ = 2 * mathPI.toQ * f.toQ := by
      rw [toQ_fmul, toQ_fmul, toQ_ofNat]; norm_num
    have hpi := mathPI_pos
    have hwne : feqb (fmul (fmul 2 mathPI) f) 0 = false := by
      apply Bool.eq_false_iff.mpr
      intro h
      have h2 := (feqb_iff _ _).mp h
      rw [toQ_zero, hwQ] at h2
      have : (0:ℚ) < 2 * mathPI.toQ * f.toQ := by positivity
      exact absurd h2 this.ne'
    refine ⟨fmul (fmul (fmul 2 mathPI) f) x, ?_, ?_⟩
    · simp only [elementImpedance, hcT, hxT, hmax, hwne]
      simp [cxF]
    · rw [toQ_fmul, hwQ]

/-- Witness for C8 at the capacitance string `"1u"` and frequency 1 Hz. -/
theorem c8_theorem_witness :
    elementImpedance ElType.C "1u" 0 = cxF dcOpenC 0 ∧
    (∃ zim : Fr, elementImpedance ElType.L "1u" 1 = ⟨some 0, some zim⟩ ∧
      zim.toQ = 2 * mathPI.toQ * (1 : Fr).toQ * (⟨1, 1000000, by decide⟩ : Fr).toQ) := by
  have h := c8_theorem "1u" ⟨1, 1000000, by decide⟩ 1 (by decide) rfl
  exact ⟨h.1, h.2.2.2.2.2 (by norm_num [toQ_one])⟩

/-! ## Claim C10 — per-element result maps -/

/-- C10 counterexample: `dupIdNet` contains a GND element with id `"x"` and
a later resistor with the same id; `solveMNA` succeeds, and the entries
stored under `"x"` are the resistor's (non-zero) quantities, not the GND
element's zeros. -/
theorem c10_counterexample :
    (dupIdNet.elements.any (fun e => e.ty = ElType.GND && e.id = "x") = true) ∧
    (solveMNA dupIdNet 0).isSome = true ∧
    (match solveMNA dupIdNet 0 with
     | some r =>
       ceqb ((r.elementVoltages "x").getD cxNaN) (cxF 0 0) ||
       ceqb ((r.elementCurrents "x").getD cxNaN) (cxF 0 0) ||
       ceqb ((r.elementPowers "x").getD cxNaN) (cxF 0 0)
     | none => true) = false := by
  refine ⟨by decide, by decide, by decide⟩

/-- C10 amended: on every successful solve, all three maps have an entry
for every element of the net; and when the element ids are pairwise
distinct (as `buildNet` produces), every GND element's entries are exactly
`0 + 0i` in all three maps. -/
theorem c10_theorem (net : CircuitNet) (f : Fr) (r : SolveRes) (h : solveMNA net f = some r) :
    (∀ e ∈ net.elements,
      (r.elementVoltages e.id).isSome = true ∧
      (r.elementCurrents e.id).isSome = true ∧
      (r.elementPowers e.id).isSome = true) ∧
    ((net.elements.map (fun e => e.id)).Nodup →
      ∀ e ∈ net.elements, e.ty = ElType.GND →
        r.elementVoltages e.id = some (cxF 0 0) ∧
        r.elementCurrents e.id = some (cxF 0 0) ∧
        r.elementPowers e.id = some (cxF 0 0)) := by
  simp only [solveMNA] at h
  split at h
  · exact absurd h (by simp)
  · split at h
    · exact absurd h (by simp)
    · split at h
      · exact absurd h (by simp)
      · rename_i x hx
        cases h
        constructor
        · intro e he
          exact extract_fold_some _ _ _ _ _ e he
        · intro hnd e he hg
          exact extract_fold_gnd _ _ _ _ _ e he hg hnd

/-- Witness for C10 on a ground–source–resistor net with distinct ids. -/
theorem c10_theorem_witness :
    ∃ r, solveMNA gndIdNet 0 = some r ∧
      r.elementVoltages "g" = some (cxF 0 0) ∧
      r.elementCurrents "g" = some (cxF 0 0) ∧
      r.elementPowers "g" = some (cxF 0 0) ∧
      (r.elementVoltages "r").isSome = true := by
  have hr : solveMNA gndIdNet 0 =
      some ((solveMNA gndIdNet 0).getD ⟨recEmpty, recEmpty, recEmpty, recEmpty⟩) := rfl
  have hthm := c10_theorem gndIdNet 0 _ hr
  have hgnd := hthm.2 (by decide) ⟨"g", ElType.GND, "G1", "gnd", "", ""⟩ (List.Mem.head _) rfl
  have hsome := hthm.1 ⟨"r", ElType.R, "R1", "n1", "gnd", "1"⟩ (by simp [gndIdNet])
  exact ⟨_, hr, hgnd.1, hgnd.2.1, hgnd.2.2, hsome.1⟩

/-! ## Claim C4 helper lemmas: association maps and identifier assignment -/

theorem mapGet_set_self {α β : Type} [DecidableEq α] (m : List (α × β)) (k : α) (v : β) :
    mapGet (mapSet m k v) k = some v := by
  induction m with
  | nil => simp [mapSet, mapGet]
  | cons p t ih =>
    by_cases hp : p.1 = k
    · simp [mapSet, mapGet, List.find?_cons, hp]
    · simp only [mapSet, List.find?_cons, hp, decide_eq_true_eq, if_neg, decide_False] at ih ⊢
      by_cases ht : (t.find? (fun pr => decide (pr.1 = k))).isSome
      · simp only [mapSet, ht, if_pos] at ih
        simp only [ht, Option.isSome_some, if_pos, List.map_cons, if_neg hp]
        simp only [mapGet, List.find?_cons, decide_eq_true_eq, hp, if_neg, decide_False] at ih ⊢
        simpa [hp] using ih
      · simp only [mapSet, ht, if_neg, Bool.false_eq_true] at ih
        simp only [ht, Bool.false_eq_true, if_neg, List.cons_append]
        simp only [mapGet, List.find?_cons, decide_eq_true_eq, hp, if_neg, decide_False] at ih ⊢
        simpa [hp] using ih

theorem find?_map_replace_ne {α β : Type} [DecidableEq α] (m : List (α × β)) (k q : α)
    (v : β) (h : q ≠ k) :
    List.find? (fun pr => decide (pr.1 = q)) (m.map (fun pr => if pr.1 = k then (k, v) else pr)) =
      List.find? (fun pr => decide (pr.1 = q)) m := by
  have hkq : decide (k = q) = false := decide_eq_false (fun he => h he.symm)
  induction m with
  | nil => rfl
  | cons p t ih =>
    by_cases hpk : p.1 = k
    · have h2 : decide (p.1 = q) = false :=
        decide_eq_false (by rw [hpk]; exact fun he => h he.symm)
      simp only [List.map_cons, if_pos hpk, List.find?_cons, hkq, h2]
      exact ih
    · by_cases hpq : p.1 = q
      · have h3 : decide (p.1 = q) = true := by simp [hpq]
        simp only [List.map_cons, if_neg hpk, List.find?_cons, h3]
      · have h3 : decide (p.1 = q) = false := decide_eq_false hpq
        simp only [List.map_cons, if_neg hpk, List.find?_cons, h3]
        exact ih

theorem find?_append_single_ne {α β : Type} [DecidableEq α] (m : List (α × β)) (k q : α)
    (v : β) (h : q ≠ k) :
    List.find? (fun pr => decide (pr.1 = q)) (m ++ [(k, v)]) =
      List.find? (fun pr => decide (pr.1 = q)) m := by
  have hkq : decide (k = q) = false := decide_eq_false (fun he => h he.symm)
  induction m with
  | nil =>
    simp only [List.nil_append, List.find?_cons, hkq]
  | cons p t ih =>
    by_cases hpq : p.1 = q
    · have h3 : decide (p.1 = q) = true := by simp [hpq]
      simp only [List.cons_append, List.find?_cons, h3]
    · have h3 : decide (p.1 = q) = false := decide_eq_false hpq
      simp only [List.cons_append, List.find?_cons, h3]
      exact ih

theorem mapGet_set_ne {α β : Type} [DecidableEq α] (m : List (α × β)) (k q : α) (v : β)
    (h : q ≠ k) : mapGet (mapSet m k v) q = mapGet m q := by
  simp only [mapSet, mapGet]
  by_cases ht : (List.find? (fun pr => decide (pr.1 = k)) m).isSome
  · rw [if_pos ht, find?_map_replace_ne m k q v h]
  · rw [if_neg ht, find?_append_single_ne m k q v h]

theorem mapGet_set_isSome {α β : Type} [DecidableEq α] (m : List (α × β)) (k q : α) (v : β)
    (h : (mapGet m q).isSome = true) : (mapGet (mapSet m k v) q).isSome = true := by
  by_cases hq : q = k
  · subst hq; rw [mapGet_set_self]; rfl
  · rw [mapGet_set_ne _ _ _ _ hq]; exact h

theorem nId_ne_gnd (c : Nat) : ("n" ++ toString c) ≠ "gnd" := by
  intro h
  have hd : ("n" ++ toString c).data = 'n' :: (toString c).data := by
    rw [String.data_append]
    rfl
  rw [h] at hd
  have : 'g' = 'n' := List.head_eq_of_cons_eq hd
  exact absurd this (by decide)

theorem gndAssign_inv (flags : List (Nat × Bool)) (groups : List (Nat × List Nat)) :
    ∀ root id, mapGet (gndAssign flags groups) root = some id →
      id = "gnd" ∧ (mapGet flags root).getD false = true := by
  rw [gndAssign]
  suffices hgen : ∀ (l : List (Nat × List Nat)) (m : List (Nat × String)),
      (∀ root id, mapGet m root = some id → id = "gnd" ∧ (mapGet flags root).getD false = true) →
      ∀ root id,
        mapGet (l.foldl
          (fun m pr => if (mapGet flags pr.1).getD false then mapSet m pr.1 "gnd" else m) m)
          root = some id →
        id = "gnd" ∧ (mapGet flags root).getD false = true by
    exact hgen groups [] (fun root id h => by simp [mapGet] at h)
  intro l
  induction l with
  | nil => intro m hm; exact hm
  | cons p t ih =>
    intro m hm
    simp only [List.foldl_cons]
    by_cases hf : (mapGet flags p.1).getD false = true
    · rw [if_pos hf]
      apply ih
      intro root id hget
      by_cases hr : root = p.1
      · subst hr
        rw [mapGet_set_self] at hget
        cases hget
        exact ⟨rfl, hf⟩
      · rw [mapGet_set_ne _ _ _ _ hr] at hget
        exact hm root id hget
    · rw [if_neg (by simpa using hf)]
      exact ih m hm

theorem gndAssign_complete (flags : List (Nat × Bool)) (groups : List (Nat × List Nat))
    (pr : Nat × List Nat) (hpr : pr ∈ groups)
    (hf : (mapGet flags pr.1).getD false = true) :
    (mapGet (gndAssign flags groups) pr.1).isSome = true := by
  rw [gndAssign]
  have hmono : ∀ (l : List (Nat × List Nat)) (m : List (Nat × String)) (q : Nat),
      (mapGet m q).isSome = true →
      (mapGet (l.foldl
        (fun m pr => if (mapGet flags pr.1).getD false then mapSet m pr.1 "gnd" else m) m)
        q).isSome = true := by
    intro l
    induction l with
    | nil => intro m q h; exact h
    | cons p t ih =>
      intro m q h
      simp only [List.foldl_cons]
      by_cases hf2 : (mapGet flags p.1).getD false = true
      · rw [if_pos hf2]
        exact ih _ _ (mapGet_set_isSome _ _ _ _ h)
      · rw [if_neg (by simpa using hf2)]
        exact ih _ _ h
  suffices hgen : ∀ (l : List (Nat × List Nat)) (m : List (Nat × String)), pr ∈ l →
      (mapGet (l.foldl
        (fun m pr => if (mapGet flags pr.1).getD false then mapSet m pr.1 "gnd" else m) m)
        pr.1).isSome = true by
    exact hgen groups [] hpr
  intro l
  induction l with
  | nil => intro m hm; cases hm
  | cons p t ih =>
    intro m hm
    simp only [List.foldl_cons]
    rcases List.mem_cons.mp hm with rfl | hm2
    · rw [if_pos hf]
      exact hmono t _ pr.1 (by rw [mapGet_set_self]; rfl)
    · by_cases hf2 : (mapGet flags p.1).getD false = true
      · rw [if_pos hf2]
        exact ih _ hm2
      · rw [if_neg (by simpa using hf2)]
        exact ih _ hm2

theorem assignIds_spec (groups : List (Nat × List Nat)) (flags : List (Nat × Bool)) :
    ∀ root id, mapGet (assignIds groups flags) root = some id →
      (id = "gnd" ↔ (mapGet flags root).getD false = true) := by
  rw [assignIds]
  suffices hgen : ∀ (l : List (Nat × List Nat)) (st : List (Nat × String) × Nat),
      (∀ pr ∈ l, pr ∈ groups) →
      (∀ root id, mapGet st.1 root = some id →
        (id = "gnd" ↔ (mapGet flags root).getD false = true)) →
      (∀ root, (mapGet (gndAssign flags groups) root).isSome = true →
        (mapGet st.1 root).isSome = true) →
      ∀ root id,
        mapGet ((l.foldl
          (fun (st : List (Nat × String) × Nat) pr =>
            if (mapGet st.1 pr.1).isSome then st
            else (mapSet st.1 pr.1 ("n" ++ toString st.2), st.2 + 1)) st).1)
          root = some id →
        (id = "gnd" ↔ (mapGet flags root).getD false = true) by
    apply hgen groups (gndAssign flags groups, 1) (fun pr h => h)
    · intro root id hget
      have := gndAssign_inv flags groups root id hget
      constructor
      · intro _; exact this.2
      · intro _; exact this.1
    · intro root h; exact h
  intro l
  induction l with
  | nil => intro st _ hQ _; exact hQ
  | cons p t ih =>
    intro st hl hQ hS
    simp only [List.foldl_cons]
    by_cases hsome : (mapGet st.1 p.1).isSome = true
    · rw [if_pos hsome]
      exact ih st (fun pr h => hl pr (List.mem_cons_of_mem p h)) hQ hS
    · rw [if_neg (by simpa using hsome)]
      apply ih _ (fun pr h => hl pr (List.mem_cons_of_mem p h))
      · intro root id hget
        by_cases hr : root = p.1
        · subst hr
          rw [mapGet_set_self] at hget
          cases hget
          have hflag : ¬((mapGet flags p.1).getD false = true) := by
            intro hf
            exact hsome (hS p.1 (gndAssign_complete flags groups p (hl p (List.mem_cons_self p t)) hf))
          constructor
          · intro hgnd; exact absurd hgnd (nId_ne_gnd st.2)
          · intro hf; exact absurd hf hflag
        · rw [mapGet_set_ne _ _ _ _ hr] at hget
          exact hQ root id hget
      · intro root h
        exact mapGet_set_isSome _ _ _ _ (hS root h)

theorem netNodesOf_no_gnd (ids : List (Nat × String)) (reps : List (Nat × PointF)) :
    ∀ nd ∈ netNodesOf ids reps, nd.id ≠ "gnd" := by
  rw [netNodesOf]
  suffices hgen : ∀ (l : List (Nat × String)) (acc : List NetNode),
      (∀ nd ∈ acc, nd.id ≠ "gnd") →
      ∀ nd ∈ l.foldl
        (fun l pr =>
          if pr.2 ≠ "gnd" then
            l ++ [⟨pr.2, ((mapGet reps pr.1).getD default).x, ((mapGet reps pr.1).getD default).y⟩]
          else l) acc, nd.id ≠ "gnd" by
    exact hgen ids [] (fun nd h => absurd h (List.not_mem_nil nd))
  intro l
  induction l with
  | nil => intro acc hacc; exact hacc
  | cons p t ih =>
    intro acc hacc
    simp only [List.foldl_cons]
    by_cases hp : p.2 ≠ "gnd"
    · rw [if_pos hp]
      apply ih
      intro nd hnd
      rcases List.mem_append.mp hnd with h | h
      · exact hacc nd h
      · rcases List.mem_singleton.mp h with rfl
        exact hp
    · rw [if_neg hp]
      exact ih acc hacc

/-- C4: `buildNet` fails exactly when the document has no elements, no GND
element, or clustering leaves zero non-ground nodes; on every other
document it succeeds, the resulting net's nodes never carry the identifier
`"gnd"`, `hasGround` is true, and the identifier assignment gives the
single name `"gnd"` to precisely the ground-flagged classes (however many
GND elements fed them) and fresh `"n#"` names to all others. -/
theorem c4_theorem (doc : CircuitDoc) :
    (isErrB (buildNet doc) = true ↔
      doc.elements.isEmpty = true ∨
      doc.elements.any (fun e => e.ty = ElType.GND) = false ∨
      (docNodes doc).isEmpty = true) ∧
    (∀ ok, buildNet doc = Except.ok ok →
      ok.net.hasGround = true ∧
      (∀ nd ∈ ok.net.nodes, nd.id ≠ "gnd") ∧
      (∀ root id, mapGet (docIds doc) root = some id →
        (id = "gnd" ↔ (mapGet (docFlags doc) root).getD false = true))) := by
  constructor
  · rw [buildNet]
    by_cases h1 : doc.elements.isEmpty = true
    · simp [h1, isErrB]
    · by_cases h2 : doc.elements.any (fun e => e.ty = ElType.GND) = true
      · by_cases h3 : (docNodes doc).isEmpty = true
        · have h3e : docNodes doc = [] := List.isEmpty_iff.mp h3
          simp [h1, h2, h3, h3e, isErrB]
        · have h3e : ¬(docNodes doc = []) := fun he => h3 (by simp [he])
          simp [h1, h2, h3, h3e, isErrB]
      · have h2f : doc.elements.any (fun e => e.ty = ElType.GND) = false :=
          Bool.eq_false_iff.mpr h2
        simp [h1, h2f, isErrB]
  · intro ok hok
    rw [buildNet] at hok
    split at hok
    · exact absurd hok (by simp)
    · split at hok
      · exact absurd hok (by simp)
      · dsimp only at hok
        split at hok
        · exact absurd hok (by simp)
        · cases hok
          exact ⟨rfl, netNodesOf_no_gnd _ _,
            fun root id h => assignIds_spec (docGroups doc) (docFlags doc) root id h⟩

/-- Witness for C4 on a concrete two-element document. -/
theorem c4_theorem_witness :
    isErrB (buildNet simpleDoc) = false ∧
    (∃ ok, buildNet simpleDoc = Except.ok ok ∧ ok.net.hasGround = true ∧
      ∀ nd ∈ ok.net.nodes, nd.id ≠ "gnd") := by
  have h := c4_theorem simpleDoc
  constructor
  · apply Bool.eq_false_iff.mpr
    intro he
    have hrhs := h.1.mp he
    have : ¬(simpleDoc.elements.isEmpty = true ∨
        simpleDoc.elements.any (fun e => e.ty = ElType.GND) = false ∨
        (docNodes simpleDoc).isEmpty = true) := by decide
    exact this hrhs
  · have hok : buildNet simpleDoc = Except.ok ((buildNet simpleDoc).toOption.getD default) := rfl
    obtain ⟨hg, hnd, _⟩ := h.2 _ hok
    exact ⟨_, hok, hg, hnd⟩

theorem getD_set_self_nat (l : List Nat) (i a d : Nat) (h : i < l.length) :
    (l.set i a).getD i d = a := by
  rw [List.getD_eq_getElem _ _ (by rw [List.length_set]; exact h)]
  exact List.getElem_set_self _

theorem getD_set_ne_nat (l : List Nat) (i j a d : Nat) (h : i ≠ j) :
    (l.set i a).getD j d = l.getD j d := by
  by_cases hj : j < l.length
  · rw [List.getD_eq_getElem _ _ (by rw [List.length_set]; exact hj),
      List.getD_eq_getElem _ _ hj]
    exact List.getElem_set_ne h _
  · rw [List.getD_eq_default _ _ (by rw [List.length_set]; omega),
      List.getD_eq_default _ _ (by omega)]

theorem parentOf_set (uf : UF) (a b x : Nat) (ha : a < uf.parent.length) (rk : List Nat) :
    parentOf ⟨uf.parent.set a b, rk⟩ x = if x = a then b else parentOf uf x := by
  by_cases hx : x = a
  · subst hx
    simp only [parentOf, if_pos]
    exact getD_set_self_nat _ _ _ _ ha
  · rw [if_neg hx]
    simp only [parentOf]
    exact getD_set_ne_nat _ _ _ _ _ (fun he => hx he.symm)

theorem iterP_succ_eq (uf : UF) (k x : Nat) : iterP uf (k + 1) x = iterP uf k (parentOf uf x) := rfl

theorem iterP_lt (uf : UF) (hwf : uf.WF) (k x : Nat) (hx : x < uf.parent.length) :
    iterP uf k x < uf.parent.length := by
  induction k generalizing x with
  | zero => exact hx
  | succ k ih => exact ih (parentOf uf x) (hwf.2.1 x hx)

theorem iterP_succ_right (uf : UF) (j x : Nat) :
    iterP uf (j + 1) x = parentOf uf (iterP uf j x) := by
  induction j generalizing x with
  | zero => rfl
  | succ j ih => exact ih (parentOf uf x)

theorem rank_iter_mono (uf : UF) (hwf : uf.WF) (x : Nat) (hx : x < uf.parent.length) (m : Nat)
    (hnof : ∀ j, j ≤ m → parentOf uf (iterP uf j x) ≠ iterP uf j x) :
    ∀ i j, i < j → j ≤ m + 1 →
      uf.rank.getD (iterP uf i x) 0 < uf.rank.getD (iterP uf j x) 0 := by
  have hstep : ∀ j, j ≤ m →
      uf.rank.getD (iterP uf j x) 0 < uf.rank.getD (iterP uf (j + 1) x) 0 := by
    intro j hj
    have hlt := iterP_lt uf hwf j x hx
    have := hwf.2.2 (iterP uf j x) hlt (hnof j hj)
    rw [iterP_succ_right]
    exact this
  intro i j hij hjm
  induction j with
  | zero => omega
  | succ j ih =>
    rcases Nat.lt_or_ge i j with hlt | hge
    · exact lt_trans (ih hlt (by omega)) (hstep j (by omega))
    · have : i = j := by omega
      subst this
      exact hstep i (by omega)

theorem exists_fix (uf : UF) (hwf : uf.WF) (x : Nat) (hx : x < uf.parent.length) :
    ∃ k, k < uf.parent.length ∧ parentOf uf (iterP uf k x) = iterP uf k x := by
  by_contra hcon
  push_neg at hcon
  have hnof : ∀ j, j ≤ uf.parent.length - 1 → parentOf uf (iterP uf j x) ≠ iterP uf j x := by
    intro j hj
    exact hcon j (by omega)
  have hmono := rank_iter_mono uf hwf x hx (uf.parent.length - 1) hnof
  set L := (List.range (uf.parent.length + 1)).map (fun j => iterP uf j x) with hL
  have hnd : L.Nodup := by
    apply List.Nodup.map_on
    · intro i hi j hj hij
      simp only [List.mem_range] at hi hj
      by_contra hne
      rcases Nat.lt_or_ge i j with hlt | hge
      · have := hmono i j hlt (by omega)
        rw [hij] at this
        exact absurd this (lt_irrefl _)
      · have hjlt : j < i := by omega
        have := hmono j i hjlt (by omega)
        rw [hij] at this
        exact absurd this (lt_irrefl _)
    · exact List.nodup_range _
  have hsub : L ⊆ List.range uf.parent.length := by
    intro y hy
    rw [hL] at hy
    obtain ⟨j, _, rfl⟩ := List.mem_map.mp hy
    exact List.mem_range.mpr (iterP_lt uf hwf j x hx)
  have hlen : L.length ≤ uf.parent.length := by
    have := (List.subperm_of_subset hnd hsub).length_le
    simpa using this
  rw [hL] at hlen
  simp only [List.length_map, List.length_range] at hlen
  omega

theorem rootD_of_fix (uf : UF) (x : Nat) (h : parentOf uf x = x) :
    ∀ fuel, rootD fuel uf x = x := by
  intro fuel
  cases fuel with
  | zero => rfl
  | succ fuel => simp [rootD, h]

theorem rootD_succ_ne (uf : UF) (fuel x : Nat) (h : parentOf uf x ≠ x) :
    rootD (fuel + 1) uf x = rootD fuel uf (parentOf uf x) := by
  simp [rootD, h]

theorem rootD_fix_of_reach (uf : UF) :
    ∀ (fuel x : Nat), (∃ k, k ≤ fuel ∧ parentOf uf (iterP uf k x) = iterP uf k x) →
      parentOf uf (rootD fuel uf x) = rootD fuel uf x := by
  intro fuel
  induction fuel with
  | zero =>
    rintro x ⟨k, hk, hfix⟩
    have : k = 0 := by omega
    subst this
    exact hfix
  | succ fuel ih =>
    rintro x ⟨k, hk, hfix⟩
    by_cases hp : parentOf uf x = x
    · rw [rootD_of_fix uf x hp]
      exact hp
    · rw [rootD_succ_ne uf fuel x hp]
      apply ih
      cases k with
      | zero => exact absurd hfix hp
      | succ k => exact ⟨k, by omega, hfix⟩

theorem rootD_fuel_mono (uf : UF) :
    ∀ (f1 x : Nat), (∃ k, k ≤ f1 ∧ parentOf uf (iterP uf k x) = iterP uf k x) →
      ∀ f2, f1 ≤ f2 → rootD f2 uf x = rootD f1 uf x := by
  intro f1
  induction f1 with
  | zero =>
    rintro x ⟨k, hk, hfix⟩ f2 _
    have : k = 0 := by omega
    subst this
    rw [rootD_of_fix uf x hfix f2]
    rfl
  | succ f1 ih =>
    rintro x ⟨k, hk, hfix⟩ f2 hf2
    by_cases hp : parentOf uf x = x
    · rw [rootD_of_fix uf x hp, rootD_of_fix uf x hp]
    · cases k with
      | zero => exact absurd hfix hp
      | succ k =>
        cases f2 with
        | zero => omega
        | succ f2 =>
          rw [rootD_succ_ne uf f2 x hp, rootD_succ_ne uf f1 x hp]
          exact ih (parentOf uf x) ⟨k, by omega, hfix⟩ f2 (by omega)

theorem root_isFix (uf : UF) (hwf : uf.WF) (x : Nat) (hx : x < uf.parent.length) :
    parentOf uf (uf.root x) = uf.root x := by
  obtain ⟨k, hk, hfix⟩ := exists_fix uf hwf x hx
  exact rootD_fix_of_reach uf _ x ⟨k, by omega, hfix⟩

theorem rootD_lt (uf : UF) (hwf : uf.WF) :
    ∀ (fuel x : Nat), x < uf.parent.length → rootD fuel uf x < uf.parent.length := by
  intro fuel
  induction fuel with
  | zero => intro x hx; exact hx
  | succ fuel ih =>
    intro x hx
    by_cases hp : parentOf uf x = x
    · rw [rootD_of_fix uf x hp]; exact hx
    · rw [rootD_succ_ne uf fuel x hp]
      exact ih (parentOf uf x) (hwf.2.1 x hx)

theorem root_lt (uf : UF) (hwf : uf.WF) (x : Nat) (hx : x < uf.parent.length) :
    uf.root x < uf.parent.length := rootD_lt uf hwf _ x hx

theorem root_parent (uf : UF) (hwf : uf.WF) (x : Nat) (hx : x < uf.parent.length) :
    uf.root (parentOf uf x) = uf.root x := by
  by_cases hp : parentOf uf x = x
  · rw [hp]
  · have hn1 : 1 ≤ uf.parent.length := by omega
    obtain ⟨k, hk, hfix⟩ := exists_fix uf hwf (parentOf uf x) (hwf.2.1 x hx)
    rw [UF.root, UF.root]
    have hstep : rootD uf.parent.length uf x =
        rootD (uf.parent.length - 1) uf (parentOf uf x) := by
      conv_lhs => rw [show uf.parent.length = (uf.parent.length - 1) + 1 by omega]
      rw [rootD_succ_ne uf _ x hp]
    rw [hstep]
    exact rootD_fuel_mono uf (uf.parent.length - 1) (parentOf uf x)
      ⟨k, by omega, hfix⟩ uf.parent.length (by omega)

theorem reaches_rootD (uf : UF) : ∀ (fuel x : Nat), Reaches uf x (rootD fuel uf x) := by
  intro fuel
  induction fuel with
  | zero => intro x; exact Relation.ReflTransGen.refl
  | succ fuel ih =>
    intro x
    by_cases hp : parentOf uf x = x
    · rw [rootD_of_fix uf x hp]
      exact Relation.ReflTransGen.refl
    · rw [rootD_succ_ne uf fuel x hp]
      exact Relation.ReflTransGen.head ⟨rfl, hp⟩ (ih (parentOf uf x))

theorem reach_from_root (uf : UF) (y z : Nat) (hy : isRoot uf y) (h : Reaches uf y z) :
    z = y := by
  rcases Relation.ReflTransGen.cases_head h with heq | ⟨c, hstep, _⟩
  · exact heq.symm
  · exact absurd (hy.symm.trans hstep.1) (Ne.symm hstep.2)

theorem reach_root_unique (uf : UF) (x z1 z2 : Nat) (h1 : Reaches uf x z1)
    (hz1 : isRoot uf z1) (h2 : Reaches uf x z2) (hz2 : isRoot uf z2) : z1 = z2 := by
  induction h1 using Relation.ReflTransGen.head_induction_on with
  | refl => exact (reach_from_root uf z1 z2 hz1 h2).symm
  | head hstep hrest ih =>
    rcases Relation.ReflTransGen.cases_head h2 with heq | ⟨c2, hstep2, h2rest⟩
    · subst heq
      exact absurd (hz2.symm.trans hstep.1) (Ne.symm hstep.2)
    · have hc := hstep2.1.symm.trans hstep.1
      exact ih (hc ▸ h2rest)

theorem root_eq_of (uf : UF) (hwf : uf.WF) (x : Nat) (hx : x < uf.parent.length) (z : Nat)
    (hr : Reaches uf x z) (hz : isRoot uf z) : uf.root x = z :=
  reach_root_unique uf x (uf.root x) z (reaches_rootD uf _ x) (root_isFix uf hwf x hx) hr hz

theorem isRoot_iff_root_self (uf : UF) (hwf : uf.WF) (x : Nat) (hx : x < uf.parent.length) :
    isRoot uf x ↔ uf.root x = x := by
  constructor
  · intro h
    exact rootD_of_fix uf x h _
  · intro h
    have := root_isFix uf hwf x hx
    rwa [h] at this

theorem root_of_root (uf : UF) (hwf : uf.WF) (x : Nat) (hx : x < uf.parent.length) :
    uf.root (uf.root x) = uf.root x :=
  (isRoot_iff_root_self uf hwf (uf.root x) (root_lt uf hwf x hx)).mp (root_isFix uf hwf x hx)

theorem rank_lt_root_aux (uf : UF) (hwf : uf.WF) :
    ∀ (fuel x : Nat), x < uf.parent.length →
      parentOf uf (rootD fuel uf x) = rootD fuel uf x → rootD fuel uf x ≠ x →
      uf.rank.getD x 0 < uf.rank.getD (rootD fuel uf x) 0 := by
  intro fuel
  induction fuel with
  | zero => intro x _ _ hne; exact absurd rfl hne
  | succ fuel ih =>
    intro x hx hfix hne
    by_cases hp : parentOf uf x = x
    · rw [rootD_of_fix uf x hp] at hne
      exact absurd rfl hne
    · rw [rootD_succ_ne uf fuel x hp] at hfix hne ⊢
      have h1 : uf.rank.getD x 0 < uf.rank.getD (parentOf uf x) 0 := hwf.2.2 x hx hp
      by_cases heq : rootD fuel uf (parentOf uf x) = parentOf uf x
      · rw [heq]
        exact h1
      · exact lt_trans h1 (ih (parentOf uf x) (hwf.2.1 x hx) hfix heq)

theorem root_ne_of_not_root (uf : UF) (hwf : uf.WF) (x : Nat) (hx : x < uf.parent.length)
    (hp : parentOf uf x ≠ x) : uf.root x ≠ x := by
  intro h
  exact hp ((isRoot_iff_root_self uf hwf x hx).mpr h)

theorem rank_lt_root (uf : UF) (hwf : uf.WF) (x : Nat) (hx : x < uf.parent.length)
    (hp : parentOf uf x ≠ x) : uf.rank.getD x 0 < uf.rank.getD (uf.root x) 0 :=
  rank_lt_root_aux uf hwf _ x hx (root_isFix uf hwf x hx) (root_ne_of_not_root uf hwf x hx hp)

theorem WF_compress (uf : UF) (hwf : uf.WF) (x : Nat) (hx : x < uf.parent.length)
    (hp : parentOf uf x ≠ x) :
    (UF.mk (uf.parent.set x (uf.root x)) uf.rank).WF := by
  have hlen : (uf.parent.set x (uf.root x)).length = uf.parent.length := List.length_set _ _ _
  refine ⟨by rw [hlen]; exact hwf.1, ?_, ?_⟩
  · intro u hu
    rw [hlen] at hu
    rw [parentOf_set uf x (uf.root x) u hx uf.rank, hlen]
    by_cases hux : u = x
    · rw [if_pos hux]
      exact root_lt uf hwf x hx
    · rw [if_neg hux]
      exact hwf.2.1 u hu
  · intro u hu
    rw [hlen] at hu
    rw [parentOf_set uf x (uf.root x) u hx uf.rank]
    by_cases hux : u = x
    · subst hux
      rw [if_pos rfl]
      intro hne
      exact rank_lt_root uf hwf u hu hp
    · rw [if_neg hux]
      exact hwf.2.2 u hu

theorem root_oob (uf : UF) (x : Nat) (hx : uf.parent.length ≤ x) : uf.root x = x := by
  apply rootD_of_fix
  simp only [parentOf]
  exact List.getD_eq_default _ _ hx

theorem root_set_preserve (uf : UF) (hwf : uf.WF) (x : Nat) (hx : x < uf.parent.length)
    (hp : parentOf uf x ≠ x) (rk : List Nat)
    (hwf2 : (UF.mk (uf.parent.set x (uf.root x)) rk).WF) :
    ∀ y, (UF.mk (uf.parent.set x (uf.root x)) rk).root y = uf.root y := by
  set uf2 : UF := ⟨uf.parent.set x (uf.root x), rk⟩ with huf2
  have hlen : uf2.parent.length = uf.parent.length := List.length_set _ _ _
  have hpar : ∀ u, parentOf uf2 u = if u = x then uf.root x else parentOf uf u := by
    intro u
    exact parentOf_set uf x (uf.root x) u hx rk
  have hlift : ∀ z, isRoot uf z → ∀ u, Reaches uf u z → Reaches uf2 u z := by
    intro z hzr u h0
    induction h0 using Relation.ReflTransGen.head_induction_on with
    | refl => exact Relation.ReflTransGen.refl
    | head hstep hrest ih =>
      rename_i a c
      by_cases hax : a = x
      · subst hax
        have hclt : c < uf.parent.length := by
          rw [← hstep.1]
          exact hwf.2.1 a hx
        have hcz : uf.root c = z := root_eq_of uf hwf c hclt z hrest hzr
        have hrz : uf.root a = z := by
          rw [← root_parent uf hwf a hx, hstep.1, hcz]
        refine Relation.ReflTransGen.head ⟨?_, ?_⟩ Relation.ReflTransGen.refl
        · rw [hpar a, if_pos rfl, hrz]
        · rw [← hrz]
          exact root_ne_of_not_root uf hwf a hx hp
      · refine Relation.ReflTransGen.head ⟨?_, hstep.2⟩ ih
        rw [hpar a, if_neg hax]
        exact hstep.1
  intro y
  by_cases hy : y < uf.parent.length
  · have hzroot : isRoot uf (uf.root y) := root_isFix uf hwf y hy
    have hreach : Reaches uf2 y (uf.root y) :=
      hlift (uf.root y) hzroot y (reaches_rootD uf _ y)
    have hzroot2 : isRoot uf2 (uf.root y) := by
      have hne : uf.root y ≠ x := by
        intro h
        have h2 := hzroot
        rw [h] at h2
        exact hp h2
      rw [isRoot, hpar (uf.root y), if_neg hne]
      exact hzroot
    exact root_eq_of uf2 hwf2 y (by rw [hlen]; exact hy) (uf.root y) hreach hzroot2
  · rw [root_oob uf2 y (by rw [hlen]; omega), root_oob uf y (by omega)]

theorem isRoot_of_root_eq (uf : UF) (hwf : uf.WF) (x : Nat) (hx : x < uf.parent.length)
    (h : uf.root x = x) : isRoot uf x := (isRoot_iff_root_self uf hwf x hx).mpr h

theorem root_union_set (uf : UF) (hwf : uf.WF) (ra rb : Nat)
    (hra : ra < uf.parent.length) (hraR : isRoot uf ra) (hrbR : isRoot uf rb)
    (hne : rb ≠ ra) (rk : List Nat)
    (hwf2 : (UF.mk (uf.parent.set ra rb) rk).WF) :
    ∀ y, (UF.mk (uf.parent.set ra rb) rk).root y =
      if uf.root y = ra then rb else uf.root y := by
  set uf2 : UF := ⟨uf.parent.set ra rb, rk⟩ with huf2
  have hlen : uf2.parent.length = uf.parent.length := List.length_set _ _ _
  have hpar : ∀ u, parentOf uf2 u = if u = ra then rb else parentOf uf u := by
    intro u
    exact parentOf_set uf ra rb u hra rk
  have hrbR2 : isRoot uf2 rb := by
    rw [isRoot, hpar rb, if_neg hne]
    exact hrbR
  have hlift : ∀ z, isRoot uf z → ∀ u, Reaches uf u z → Reaches uf2 u z := by
    intro z hzr u h0
    induction h0 using Relation.ReflTransGen.head_induction_on with
    | refl => exact Relation.ReflTransGen.refl
    | head hstep hrest ih =>
      rename_i a c
      have hax : a ≠ ra := by
        intro h
        subst h
        exact hstep.2 (hstep.1.symm.trans hraR)
      refine Relation.ReflTransGen.head ⟨?_, hstep.2⟩ ih
      rw [hpar a, if_neg hax]
      exact hstep.1
  intro y
  by_cases hy : y < uf.parent.length
  · have hzroot : isRoot uf (uf.root y) := root_isFix uf hwf y hy
    have hreach : Reaches uf2 y (uf.root y) :=
      hlift (uf.root y) hzroot y (reaches_rootD uf _ y)
    by_cases hcase : uf.root y = ra
    · rw [if_pos hcase]
      have hstep2 : Step uf2 (uf.root y) rb := by
        refine ⟨?_, ?_⟩
        · rw [hpar (uf.root y), if_pos hcase]
        · rw [hcase]
          exact hne
      have hreach2 : Reaches uf2 y rb :=
        Relation.ReflTransGen.tail hreach hstep2
      exact root_eq_of uf2 hwf2 y (by rw [hlen]; exact hy) rb hreach2 hrbR2
    · rw [if_neg hcase]
      have hzroot2 : isRoot uf2 (uf.root y) := by
        rw [isRoot, hpar (uf.root y), if_neg hcase]
        exact hzroot
      exact root_eq_of uf2 hwf2 y (by rw [hlen]; exact hy) (uf.root y) hreach hzroot2
  · have hyra : y ≠ ra := by omega
    rw [root_oob uf2 y (by rw [hlen]; omega), root_oob uf y (by omega), if_neg ?_]
    intro h
    exact hyra h

theorem WF_union_lt (uf : UF) (hwf : uf.WF) (ra rb : Nat)
    (hra : ra < uf.parent.length) (hrb : rb < uf.parent.length)
    (hraR : isRoot uf ra)
    (hlt : uf.rank.getD ra 0 < uf.rank.getD rb 0) :
    (UF.mk (uf.parent.set ra rb) uf.rank).WF := by
  have hlen : (uf.parent.set ra rb).length = uf.parent.length := List.length_set _ _ _
  have hpar : ∀ u, parentOf (UF.mk (uf.parent.set ra rb) uf.rank) u =
      if u = ra then rb else parentOf uf u := by
    intro u
    exact parentOf_set uf ra rb u hra uf.rank
  refine ⟨by rw [hlen]; exact hwf.1, ?_, ?_⟩
  · intro u hu
    rw [hlen] at hu
    rw [hpar u, hlen]
    by_cases hux : u = ra
    · rw [if_pos hux]; exact hrb
    · rw [if_neg hux]; exact hwf.2.1 u hu
  · intro u hu
    rw [hlen] at hu
    rw [hpar u]
    by_cases hux : u = ra
    · subst hux
      rw [if_pos rfl]
      intro _
      exact hlt
    · rw [if_neg hux]
      exact hwf.2.2 u hu

theorem WF_union_eq (uf : UF) (hwf : uf.WF) (ra rb : Nat)
    (hra : ra < uf.parent.length) (hrb : rb < uf.parent.length)
    (hraR : isRoot uf ra) (hrbR : isRoot uf rb) (hne : rb ≠ ra)
    (heq : uf.rank.getD rb 0 = uf.rank.getD ra 0) :
    (UF.mk (uf.parent.set rb ra) (uf.rank.set ra (uf.rank.getD ra 0 + 1))).WF := by
  have hralen : ra < uf.rank.length := by rw [hwf.1]; exact hra
  have hlen : (uf.parent.set rb ra).length = uf.parent.length := List.length_set _ _ _
  have hrklen : (uf.rank.set ra (uf.rank.getD ra 0 + 1)).length = uf.rank.length :=
    List.length_set _ _ _
  have hpar : ∀ u, parentOf (UF.mk (uf.parent.set rb ra) (uf.rank.set ra (uf.rank.getD ra 0 + 1))) u =
      if u = rb then ra else parentOf uf u := by
    intro u
    exact parentOf_set uf rb ra u hrb _
  have hrk : ∀ u, (uf.rank.set ra (uf.rank.getD ra 0 + 1)).getD u 0 =
      if u = ra then uf.rank.getD ra 0 + 1 else uf.rank.getD u 0 := by
    intro u
    by_cases hu : u = ra
    · subst hu
      rw [if_pos rfl]
      exact getD_set_self_nat _ _ _ _ hralen
    · rw [if_neg hu]
      exact getD_set_ne_nat _ _ _ _ _ (fun h => hu h.symm)
  refine ⟨by rw [hlen, hrklen]; exact hwf.1, ?_, ?_⟩
  · intro u hu
    rw [hlen] at hu
    rw [hpar u, hlen]
    by_cases hux : u = rb
    · rw [if_pos hux]; exact hra
    · rw [if_neg hux]; exact hwf.2.1 u hu
  · intro u hu
    rw [hlen] at hu
    rw [hpar u, hrk u]
    by_cases hux : u = rb
    · subst hux
      rw [if_pos rfl, if_neg hne, hrk ra, if_pos rfl]
      intro _
      omega
    · rw [if_neg hux]
      intro hpu
      rw [hrk (parentOf uf u)]
      have h1 := hwf.2.2 u hu hpu
      by_cases hux2 : u = ra
      · -- u = ra is a root, so parentOf u = u, contradiction
        subst hux2
        exact absurd hraR hpu
      · rw [if_neg hux2]
        by_cases hp2 : parentOf uf u = ra
        · rw [if_pos hp2]
          rw [hp2] at h1
          omega
        · rw [if_neg hp2]
          exact h1

theorem findAux_spec : ∀ (fuel : Nat) (uf : UF) (x : Nat), uf.WF → x < uf.parent.length →
    parentOf uf (rootD fuel uf x) = rootD fuel uf x →
    (findAux fuel uf x).2 = uf.root x ∧
    (findAux fuel uf x).1.WF ∧
    (findAux fuel uf x).1.parent.length = uf.parent.length ∧
    (findAux fuel uf x).1.rank = uf.rank ∧
    ∀ y, (findAux fuel uf x).1.root y = uf.root y := by
  intro fuel
  induction fuel with
  | zero =>
    intro uf x hwf hx hfix
    simp only [rootD] at hfix
    exact ⟨(rootD_of_fix uf x hfix uf.parent.length).symm, hwf, rfl, rfl, fun y => rfl⟩
  | succ fuel ih =>
    intro uf x hwf hx hfix
    by_cases hpx : parentOf uf x = x
    · have hres : findAux (fuel + 1) uf x = (uf, x) := by
        simp only [findAux]
        rw [if_pos hpx]
      rw [hres]
      exact ⟨(rootD_of_fix uf x hpx uf.parent.length).symm, hwf, rfl, rfl, fun y => rfl⟩
    · have hres : findAux (fuel + 1) uf x =
          (⟨(findAux fuel uf (parentOf uf x)).1.parent.set x (findAux fuel uf (parentOf uf x)).2,
            (findAux fuel uf (parentOf uf x)).1.rank⟩,
           (findAux fuel uf (parentOf uf x)).2) := by
        simp only [findAux]
        rw [if_neg hpx]
      rw [rootD_succ_ne uf fuel x hpx] at hfix
      have hplt : parentOf uf x < uf.parent.length := hwf.2.1 x hx
      obtain ⟨h2, hwf1, hlen1, hrk1, hroots1⟩ := ih uf (parentOf uf x) hwf hplt hfix
      set r := findAux fuel uf (parentOf uf x) with hr
      have hrx : r.2 = uf.root x := by
        rw [h2]
        exact root_parent uf hwf x hx
      have hx1 : x < r.1.parent.length := by rw [hlen1]; exact hx
      have hpr1 : parentOf r.1 x ≠ x := by
        intro h
        have h3 : r.1.root x = x := (isRoot_iff_root_self r.1 hwf1 x hx1).mp h
        rw [hroots1 x] at h3
        exact hpx ((isRoot_iff_root_self uf hwf x hx).mpr h3)
      have hr2root : r.2 = r.1.root x := by
        rw [hrx, hroots1 x]
      have hwfc : (UF.mk (r.1.parent.set x (r.1.root x)) r.1.rank).WF :=
        WF_compress r.1 hwf1 x hx1 hpr1
      have hpres := root_set_preserve r.1 hwf1 x hx1 hpr1 r.1.rank hwfc
      rw [hres]
      refine ⟨hrx, ?_, ?_, hrk1, ?_⟩
      · rw [hr2root]
        exact hwfc
      · simp only [List.length_set]
        exact hlen1
      · intro y
        have h4 : (UF.mk (r.1.parent.set x r.2) r.1.rank).root y = r.1.root y := by
          rw [hr2root]
          exact hpres y
        rw [h4, hroots1 y]

theorem find_spec (uf : UF) (hwf : uf.WF) (x : Nat) (hx : x < uf.parent.length) :
    (uf.find x).2 = uf.root x ∧
    (uf.find x).1.WF ∧
    (uf.find x).1.parent.length = uf.parent.length ∧
    (uf.find x).1.rank = uf.rank ∧
    ∀ y, (uf.find x).1.root y = uf.root y :=
  findAux_spec uf.parent.length uf x hwf hx (root_isFix uf hwf x hx)

theorem union_spec (uf : UF) (hwf : uf.WF) (a b : Nat)
    (ha : a < uf.parent.length) (hb : b < uf.parent.length) :
    (uf.union a b).WF ∧
    (uf.union a b).parent.length = uf.parent.length ∧
    (∀ y z, uf.root y = uf.root z → (uf.union a b).root y = (uf.union a b).root z) ∧
    (uf.union a b).root a = (uf.union a b).root b := by
  obtain ⟨ha2, hwf1, hlen1, hrk1, hroots1⟩ := find_spec uf hwf a ha
  set f1 := uf.find a with hf1
  have hb1 : b < f1.1.parent.length := by rw [hlen1]; exact hb
  obtain ⟨hb2, hwf2, hlen2, hrk2, hroots2⟩ := find_spec f1.1 hwf1 b hb1
  set f2 := f1.1.find b with hf2
  set uf2 := f2.1 with huf2d
  have hlen : uf2.parent.length = uf.parent.length := hlen2.trans hlen1
  have hroots : ∀ y, uf2.root y = uf.root y := by
    intro y
    rw [hroots2 y, hroots1 y]
  have hra : f1.2 = uf.root a := ha2
  have hrb : f2.2 = uf.root b := by rw [hb2, hroots1 b]
  have hraR : isRoot uf2 f1.2 := by
    apply (isRoot_iff_root_self uf2 hwf2 f1.2 ?_).mpr
    · rw [hroots f1.2, hra]
      exact root_of_root uf hwf a ha
    · rw [hlen, hra]
      exact root_lt uf hwf a ha
  have hrbR : isRoot uf2 f2.2 := by
    apply (isRoot_iff_root_self uf2 hwf2 f2.2 ?_).mpr
    · rw [hroots f2.2, hrb]
      exact root_of_root uf hwf b hb
    · rw [hlen, hrb]
      exact root_lt uf hwf b hb
  have hralt : f1.2 < uf2.parent.length := by
    rw [hlen, hra]
    exact root_lt uf hwf a ha
  have hrblt : f2.2 < uf2.parent.length := by
    rw [hlen, hrb]
    exact root_lt uf hwf b hb
  have hU : uf.union a b =
      (if f1.2 = f2.2 then uf2
       else if uf2.rank.getD f1.2 0 < uf2.rank.getD f2.2 0 then
         ⟨uf2.parent.set f1.2 f2.2, uf2.rank⟩
       else if uf2.rank.getD f2.2 0 < uf2.rank.getD f1.2 0 then
         ⟨uf2.parent.set f2.2 f1.2, uf2.rank⟩
       else ⟨uf2.parent.set f2.2 f1.2, uf2.rank.set f1.2 (uf2.rank.getD f1.2 0 + 1)⟩) := by
    rw [UF.union]
  by_cases hrr : f1.2 = f2.2
  · rw [hU, if_pos hrr]
    refine ⟨hwf2, hlen, ?_, ?_⟩
    · intro y z h
      rw [hroots y, hroots z]
      exact h
    · rw [hroots a, hroots b, ← hra, ← hrb, hrr]
  · have hrr2 : f2.2 ≠ f1.2 := fun h => hrr h.symm
    rcases lt_trichotomy (uf2.rank.getD f1.2 0) (uf2.rank.getD f2.2 0) with hlt | heq | hgt
    · -- parent[ra] := rb
      have hwfU := WF_union_lt uf2 hwf2 f1.2 f2.2 hralt hrblt hraR hlt
      have hrootU := root_union_set uf2 hwf2 f1.2 f2.2 hralt hraR hrbR hrr2 uf2.rank hwfU
      rw [hU, if_neg hrr, if_pos hlt]
      refine ⟨hwfU, by simp only [List.length_set]; exact hlen, ?_, ?_⟩
      · intro y z h
        rw [hrootU y, hrootU z, hroots y, hroots z, h]
      · rw [hrootU a, hrootU b, hroots a, hroots b, ← hra, ← hrb]
        rw [if_pos rfl, if_neg hrr2]
    · -- equal ranks: parent[rb] := ra; rank[ra]++
      have hwfU := WF_union_eq uf2 hwf2 f1.2 f2.2 hralt hrblt hraR hrbR hrr2
        (by rw [heq])
      have hrootU := root_union_set uf2 hwf2 f2.2 f1.2 hrblt hrbR hraR hrr
        (uf2.rank.set f1.2 (uf2.rank.getD f1.2 0 + 1)) hwfU
      rw [hU, if_neg hrr, if_neg (by omega), if_neg (by omega)]
      refine ⟨hwfU, by simp only [List.length_set]; exact hlen, ?_, ?_⟩
      · intro y z h
        rw [hrootU y, hrootU z, hroots y, hroots z, h]
      · rw [hrootU a, hrootU b, hroots a, hroots b, ← hra, ← hrb]
        rw [if_neg hrr, if_pos rfl]
    · -- parent[rb] := ra
      have hwfU := WF_union_lt uf2 hwf2 f2.2 f1.2 hrblt hralt hrbR hgt
      have hrootU := root_union_set uf2 hwf2 f2.2 f1.2 hrblt hrbR hraR hrr uf2.rank hwfU
      rw [hU, if_neg hrr, if_neg (by omega), if_pos hgt]
      refine ⟨hwfU, by simp only [List.length_set]; exact hlen, ?_, ?_⟩
      · intro y z h
        rw [hrootU y, hrootU z, hroots y, hroots z, h]
      · rw [hrootU a, hrootU b, hroots a, hroots b, ← hra, ← hrb]
        rw [if_neg hrr, if_pos rfl]

theorem sameClass_iff (uf : UF) (hwf : uf.WF) (i j : Nat)
    (hi : i < uf.parent.length) (hj : j < uf.parent.length) :
    sameClass uf i j = true ↔ uf.root i = uf.root j := by
  obtain ⟨hi2, hwf1, hlen1, _, hroots1⟩ := find_spec uf hwf i hi
  have hj1 : j < (uf.find i).1.parent.length := by rw [hlen1]; exact hj
  obtain ⟨hj2, _, _, _, _⟩ := find_spec (uf.find i).1 hwf1 j hj1
  rw [sameClass, decide_eq_true_iff, hi2, hj2, hroots1 j]

theorem UF.init_WF (n : Nat) : (UF.init n).WF := by
  refine ⟨by simp [UF.init], ?_, ?_⟩
  · intro x hx
    simp only [UF.init, List.length_range] at hx ⊢
    simp [parentOf, UF.init, List.getD, List.getElem?_range hx, hx]
  · intro x hx hne
    exfalso
    apply hne
    simp only [UF.init, List.length_range] at hx
    simp [parentOf, UF.init, List.getD, List.getElem?_range hx]

theorem UFInv.init (n : Nat) : UFInv n (UF.init n) :=
  ⟨UF.init_WF n, by simp [UF.init]⟩

theorem union_inv_mono (n : Nat) (uf : UF) (a b : Nat) (ha : a < n) (hb : b < n)
    (h : UFInv n uf) : UFInv n (uf.union a b) ∧ UFMono uf (uf.union a b) := by
  obtain ⟨hwf, hlen⟩ := h
  obtain ⟨hwfU, hlenU, hmono, _⟩ := union_spec uf hwf a b (by omega) (by omega)
  exact ⟨⟨hwfU, hlenU.trans hlen⟩, hmono⟩

theorem union_root_eq (n : Nat) (uf : UF) (a b : Nat) (ha : a < n) (hb : b < n)
    (h : UFInv n uf) : (uf.union a b).root a = (uf.union a b).root b := by
  obtain ⟨hwf, hlen⟩ := h
  exact (union_spec uf hwf a b (by omega) (by omega)).2.2.2

theorem UFMono.rfl (uf : UF) : UFMono uf uf := fun _ _ h => h

theorem UFMono.comp {uf1 uf2 uf3 : UF} (h1 : UFMono uf1 uf2) (h2 : UFMono uf2 uf3) :
    UFMono uf1 uf3 := fun y z h => h2 y z (h1 y z h)

theorem foldl_inv_mono {α : Type} (n : Nat) (f : UF → α → UF) :
    ∀ (L : List α), (∀ uf x, x ∈ L → UFInv n uf → UFInv n (f uf x) ∧ UFMono uf (f uf x)) →
    ∀ uf0, UFInv n uf0 → UFInv n (L.foldl f uf0) ∧ UFMono uf0 (L.foldl f uf0) := by
  intro L
  induction L with
  | nil => intro _ uf0 h; exact ⟨h, UFMono.rfl uf0⟩
  | cons a t ih =>
    intro hstep uf0 h0
    obtain ⟨hI, hM⟩ := hstep uf0 a (List.mem_cons_self a t) h0
    obtain ⟨hI2, hM2⟩ := ih (fun uf x hx hi => hstep uf x (List.mem_cons_of_mem a hx) hi)
      (f uf0 a) hI
    exact ⟨hI2, hM.comp hM2⟩

theorem mem_mapPush_self {α : Type} [DecidableEq α] (m : List (α × List Nat)) (k : α) (v : Nat) :
    v ∈ (mapGet (mapPush m k v) k).getD [] := by
  rw [mapPush, mapGet_set_self]
  simp

theorem mem_mapPush_preserve {α : Type} [DecidableEq α] (m : List (α × List Nat))
    (k q : α) (v w : Nat) (h : w ∈ (mapGet m q).getD []) :
    w ∈ (mapGet (mapPush m k v) q).getD [] := by
  by_cases hq : q = k
  · subst hq
    rw [mapPush, mapGet_set_self]
    simp only [Option.getD_some]
    exact List.mem_append_left _ h
  · rw [mapPush, mapGet_set_ne _ _ _ _ hq]
    exact h

theorem mem_mapPush_elim {α : Type} [DecidableEq α] (m : List (α × List Nat))
    (k q : α) (v w : Nat) (h : w ∈ (mapGet (mapPush m k v) q).getD []) :
    w ∈ (mapGet m q).getD [] ∨ w = v := by
  by_cases hq : q = k
  · subst hq
    rw [mapPush, mapGet_set_self] at h
    simp only [Option.getD_some] at h
    rcases List.mem_append.mp h with h1 | h1
    · exact Or.inl h1
    · right
      simpa using h1
  · rw [mapPush, mapGet_set_ne _ _ _ _ hq] at h
    exact Or.inl h

theorem bb_mem_aux (cell : Fr) :
    ∀ (L : List (Nat × PRef)) (m0 : List ((Int × Int) × List Nat)) (ip : Nat × PRef),
      (ip ∈ L ∨ ip.1 ∈ (mapGet m0 (cellIdxOf cell ip.2.p)).getD []) →
      ip.1 ∈ (mapGet (L.foldl (fun m jq => mapPush m (cellIdxOf cell jq.2.p) jq.1) m0)
        (cellIdxOf cell ip.2.p)).getD [] := by
  intro L
  induction L with
  | nil =>
    intro m0 ip h
    rcases h with h | h
    · exact absurd h (List.not_mem_nil ip)
    · exact h
  | cons a t ih =>
    intro m0 ip h
    rcases h with h | h
    · rcases List.mem_cons.mp h with h1 | h1
      · subst h1
        exact ih _ ip (Or.inr (mem_mapPush_self m0 _ ip.1))
      · exact ih _ ip (Or.inl h1)
    · exact ih _ ip (Or.inr (mem_mapPush_preserve m0 _ _ a.1 ip.1 h))

theorem bb_bound_aux (cell : Fr) (P : Nat → Prop) :
    ∀ (L : List (Nat × PRef)) (m0 : List ((Int × Int) × List Nat)),
      (∀ k v, v ∈ (mapGet m0 k).getD [] → P v) →
      (∀ ip, ip ∈ L → P ip.1) →
      ∀ k v,
        v ∈ (mapGet (L.foldl (fun m jq => mapPush m (cellIdxOf cell jq.2.p) jq.1) m0) k).getD [] →
        P v := by
  intro L
  induction L with
  | nil => intro m0 hm0 _ k v h; exact hm0 k v h
  | cons a t ih =>
    intro m0 hm0 hL k v h
    refine ih _ ?_ (fun ip hip => hL ip (List.mem_cons_of_mem a hip)) k v h
    intro k2 w hw
    rcases mem_mapPush_elim m0 _ k2 a.1 w hw with h1 | h1
    · exact hm0 k2 w h1
    · rw [h1]
      exact hL a (List.mem_cons_self a t)

theorem buildBuckets_mem (points : List PRef) (cell : Fr) (ip : Nat × PRef)
    (h : ip ∈ points.enum) :
    ip.1 ∈ (mapGet (buildBuckets points cell) (cellIdxOf cell ip.2.p)).getD [] := by
  rw [buildBuckets]
  exact bb_mem_aux cell points.enum [] ip (Or.inl h)

theorem buildBuckets_lt (points : List PRef) (cell : Fr) (k : Int × Int) (v : Nat)
    (h : v ∈ (mapGet (buildBuckets points cell) k).getD []) : v < points.length := by
  rw [buildBuckets] at h
  refine bb_bound_aux cell (fun v => v < points.length) points.enum []
    (by intro k2 w hw; simp [mapGet] at hw) ?_ k v h
  intro jq hjq
  have := List.mem_enumFrom hjq
  omega

theorem mem_neighborsOf (buckets : List ((Int × Int) × List Nat)) (cx cy dx dy : Int)
    (hdx : dx = -1 ∨ dx = 0 ∨ dx = 1) (hdy : dy = -1 ∨ dy = 0 ∨ dy = 1) (j : Nat)
    (hj : j ∈ (mapGet buckets (cx + dx, cy + dy)).getD []) :
    j ∈ neighborsOf buckets cx cy := by
  rw [neighborsOf]
  rw [List.mem_bind]
  refine ⟨dx, by rcases hdx with h | h | h <;> simp [h], ?_⟩
  rw [List.mem_bind]
  refine ⟨dy, by rcases hdy with h | h | h <;> simp [h], hj⟩

theorem neighborsOf_subset (buckets : List ((Int × Int) × List Nat)) (cx cy : Int) (j : Nat)
    (h : j ∈ neighborsOf buckets cx cy) :
    ∃ c, j ∈ (mapGet buckets c).getD [] := by
  rw [neighborsOf, List.mem_bind] at h
  obtain ⟨dx, _, h⟩ := h
  rw [List.mem_bind] at h
  obtain ⟨dy, _, h⟩ := h
  exact ⟨(cx + dx, cy + dy), h⟩

theorem toQ_tolOf (g : Fr) :
    (tolOf g).toQ = max 6 ((⌊g.toQ * ((35 : ℚ) / 100)⌋ : ℚ)) := by
  rw [tolOf, toQ_fmax, toQ_ofInt, floorF_eq, toQ_fmul, toQ_ofNat]
  have h35 : (Fr.mk 35 100 (by decide)).toQ = (35 : ℚ) / 100 := by
    simp [Fr.toQ]
  rw [h35]
  norm_num

theorem toQ_cellOf (g : Fr) : (cellOf g).toQ = max 10 g.toQ := by
  rw [cellOf, toQ_fmax, toQ_ofNat]
  norm_num

theorem tolQ_pos (g : Fr) : 0 < (tolOf g).toQ := by
  rw [toQ_tolOf]
  have : (6 : ℚ) ≤ max 6 ((⌊g.toQ * ((35 : ℚ) / 100)⌋ : ℚ)) := le_max_left _ _
  linarith

theorem cellQ_pos (g : Fr) : 0 < (cellOf g).toQ := by
  rw [toQ_cellOf]
  have : (10 : ℚ) ≤ max 10 g.toQ := le_max_left _ _
  linarith

theorem tolQ_le_cellQ (g : Fr) : (tolOf g).toQ ≤ (cellOf g).toQ := by
  rw [toQ_tolOf, toQ_cellOf]
  apply max_le
  · exact le_trans (by norm_num) (le_max_left 10 g.toQ)
  · have hf : ((⌊g.toQ * ((35 : ℚ) / 100)⌋ : ℚ)) ≤ g.toQ * ((35 : ℚ) / 100) :=
      Int.floor_le _
    rcases le_or_lt g.toQ 10 with hg | hg
    · refine le_trans ?_ (le_max_left 10 g.toQ)
      linarith
    · refine le_trans ?_ (le_max_right 10 g.toQ)
      linarith

theorem floor_div_adj (c x1 x2 : ℚ) (hc : 0 < c) (h : |x1 - x2| ≤ c) :
    ⌊x2 / c⌋ = ⌊x1 / c⌋ - 1 ∨ ⌊x2 / c⌋ = ⌊x1 / c⌋ ∨ ⌊x2 / c⌋ = ⌊x1 / c⌋ + 1 := by
  obtain ⟨hlo, hhi⟩ := abs_le.mp h
  have h1 : x2 / c ≤ (x1 + c) / c := by
    gcongr
    linarith
  have h2 : (x1 - c) / c ≤ x2 / c := by
    gcongr
    linarith
  have he1 : (x1 + c) / c = x1 / c + 1 := by
    field_simp
  have he2 : (x1 - c) / c = x1 / c - 1 := by
    field_simp
  rw [he1] at h1
  rw [he2] at h2
  have hf1 : ⌊x2 / c⌋ ≤ ⌊x1 / c + 1⌋ := Int.floor_le_floor h1
  have hf2 : ⌊x1 / c - 1⌋ ≤ ⌊x2 / c⌋ := Int.floor_le_floor h2
  rw [Int.floor_add_one] at hf1
  have he3 : x1 / c - 1 = x1 / c - ((1 : ℤ) : ℚ) := by push_cast; ring
  rw [he3, Int.floor_sub_int] at hf2
  omega

theorem abs_le_of_sq_le (dx t : ℚ) (ht : 0 ≤ t) (h : dx * dx ≤ t * t) : |dx| ≤ t := by
  rcases abs_cases dx with ⟨h1, _⟩ | ⟨h1, _⟩ <;> rw [h1] <;> nlinarith

theorem dist2_coords (a b : PointF) (t2 : Fr) (h : fleb (dist2 a b) t2 = true) :
    (a.x.toQ - b.x.toQ) * (a.x.toQ - b.x.toQ) ≤ t2.toQ ∧
    (a.y.toQ - b.y.toQ) * (a.y.toQ - b.y.toQ) ≤ t2.toQ := by
  rw [fleb_iff, dist2, toQ_fadd, toQ_fmul, toQ_fmul, toQ_fsub, toQ_fsub] at h
  constructor <;> nlinarith [sq_nonneg (a.x.toQ - b.x.toQ), sq_nonneg (a.y.toQ - b.y.toQ)]

theorem cellIdxOf_eq (cell : Fr) (hc : cell.num ≠ 0) (p : PointF) :
    cellIdxOf cell p = (⌊p.x.toQ / cell.toQ⌋, ⌊p.y.toQ / cell.toQ⌋) := by
  rw [cellIdxOf, floorF_eq, floorF_eq, toQ_fdiv0 _ _ hc, toQ_fdiv0 _ _ hc]

theorem cellIdx_adj (g : Fr) (a b : PointF)
    (h : fleb (dist2 a b) (fmul (tolOf g) (tolOf g)) = true) :
    ∃ dx dy : Int, (dx = -1 ∨ dx = 0 ∨ dx = 1) ∧ (dy = -1 ∨ dy = 0 ∨ dy = 1) ∧
      cellIdxOf (cellOf g) b =
        ((cellIdxOf (cellOf g) a).1 + dx, (cellIdxOf (cellOf g) a).2 + dy) := by
  have hcnum : (cellOf g).num ≠ 0 := by
    intro h0
    have h1 := cellQ_pos g
    have h2 : (cellOf g).toQ = 0 := (Fr.toQ_eq_zero_iff _).mpr h0
    linarith
  have ht2 : (fmul (tolOf g) (tolOf g)).toQ = (tolOf g).toQ * (tolOf g).toQ := toQ_fmul _ _
  obtain ⟨hx, hy⟩ := dist2_coords a b _ h
  rw [ht2] at hx hy
  have htpos := tolQ_pos g
  have hxabs : |a.x.toQ - b.x.toQ| ≤ (cellOf g).toQ :=
    le_trans (abs_le_of_sq_le _ _ (by linarith) hx) (tolQ_le_cellQ g)
  have hyabs : |a.y.toQ - b.y.toQ| ≤ (cellOf g).toQ :=
    le_trans (abs_le_of_sq_le _ _ (by linarith) hy) (tolQ_le_cellQ g)
  have hcpos := cellQ_pos g
  have hax := floor_div_adj (cellOf g).toQ a.x.toQ b.x.toQ hcpos hxabs
  have hay := floor_div_adj (cellOf g).toQ a.y.toQ b.y.toQ hcpos hyabs
  rw [cellIdxOf_eq _ hcnum a, cellIdxOf_eq _ hcnum b]
  refine ⟨⌊b.x.toQ / (cellOf g).toQ⌋ - ⌊a.x.toQ / (cellOf g).toQ⌋,
          ⌊b.y.toQ / (cellOf g).toQ⌋ - ⌊a.y.toQ / (cellOf g).toQ⌋, ?_, ?_, ?_⟩
  · omega
  · omega
  · simp only [Prod.mk.injEq]
    omega

theorem find?_pred {α : Type} (p : α → Bool) :
    ∀ (l : List α) (a : α), l.find? p = some a → p a = true := by
  intro l
  induction l with
  | nil => intro a h; simp at h
  | cons x t ih =>
    intro a h
    by_cases hpx : p x = true
    · rw [List.find?_cons_of_pos _ hpx] at h
      cases h
      exact hpx
    · rw [List.find?_cons_of_neg _ (by simpa using hpx)] at h
      exact ih a h

theorem mapGet_mem {α β : Type} [DecidableEq α] (m : List (α × β)) (k : α) (l : β)
    (h : mapGet m k = some l) : (k, l) ∈ m := by
  rw [mapGet] at h
  cases hf : m.find? (fun pr => decide (pr.1 = k)) with
  | none => rw [hf] at h; simp at h
  | some pr =>
    rw [hf] at h
    simp at h
    have hmem := List.mem_of_find?_eq_some hf
    have h2 := find?_pred (fun q => decide (q.1 = k)) m pr hf
    have hpk : pr.1 = k := of_decide_eq_true (by simpa using h2)
    have hpr : pr = (k, l) := by
      rw [← hpk, ← h]
    rwa [← hpr]

theorem mem_mapSet {α β : Type} [DecidableEq α] (m : List (α × β)) (k : α) (v : β)
    (pr : α × β) (h : pr ∈ mapSet m k v) : pr ∈ m ∨ pr = (k, v) := by
  rw [mapSet] at h
  by_cases hs : (m.find? (fun pr => decide (pr.1 = k))).isSome
  · rw [if_pos hs] at h
    obtain ⟨pr0, hpr0, heq⟩ := List.mem_map.mp h
    by_cases hk : pr0.1 = k
    · rw [if_pos hk] at heq
      exact Or.inr heq.symm
    · rw [if_neg hk] at heq
      rw [← heq]
      exact Or.inl hpr0
  · rw [if_neg hs] at h
    rcases List.mem_append.mp h with h1 | h1
    · exact Or.inl h1
    · right
      simpa using h1

theorem mem_mapPush_entry {α : Type} [DecidableEq α] (m : List (α × List Nat)) (k : α)
    (w : Nat) (pr : α × List Nat) (h : pr ∈ mapPush m k w) :
    pr ∈ m ∨ pr = (k, (mapGet m k).getD [] ++ [w]) :=
  mem_mapSet m k _ pr h

theorem wim_aux (n : Nat) :
    ∀ (L : List (Nat × PRef)) (m0 : List (String × List Nat)),
      (∀ pr, pr ∈ m0 → pr.2 ≠ [] ∧ ∀ v ∈ pr.2, v < n) →
      (∀ ip, ip ∈ L → ip.1 < n) →
      ∀ pr, pr ∈ L.foldl
        (fun m ip =>
          if ip.2.kind = PKind.wire ∧ ip.2.ownerId ≠ "" then mapPush m ip.2.ownerId ip.1
          else m) m0 →
        pr.2 ≠ [] ∧ ∀ v ∈ pr.2, v < n := by
  intro L
  induction L with
  | nil => intro m0 hm0 _ pr h; exact hm0 pr h
  | cons a t ih =>
    intro m0 hm0 hL pr h
    refine ih _ ?_ (fun ip hip => hL ip (List.mem_cons_of_mem a hip)) pr h
    intro pr2 hpr2
    dsimp only at hpr2
    by_cases hc : a.2.kind = PKind.wire ∧ a.2.ownerId ≠ ""
    · rw [if_pos hc] at hpr2
      rcases mem_mapPush_entry m0 a.2.ownerId a.1 pr2 hpr2 with h1 | h1
      · exact hm0 pr2 h1
      · rw [h1]
        refine ⟨by simp, ?_⟩
        intro v hv
        rcases List.mem_append.mp hv with h2 | h2
        · cases hg : mapGet m0 a.2.ownerId with
          | none => rw [hg] at h2; simp at h2
          | some l =>
            rw [hg] at h2
            simp only [Option.getD_some] at h2
            exact (hm0 _ (mapGet_mem m0 a.2.ownerId l hg)).2 v h2
        · have : v = a.1 := by simpa using h2
          rw [this]
          exact hL a (List.mem_cons_self a t)
    · rw [if_neg hc] at hpr2
      exact hm0 pr2 hpr2

theorem wireIdxMap_values (points : List PRef) (pr : String × List Nat)
    (h : pr ∈ wireIdxMap points) : pr.2 ≠ [] ∧ ∀ v ∈ pr.2, v < points.length := by
  rw [wireIdxMap] at h
  refine wim_aux points.length points.enum [] (by intro pr2 h2; simp at h2) ?_ pr h
  intro ip hip
  have := List.mem_enumFrom hip
  omega

theorem unionPass_inv_mono (points : List PRef) (tol2 cell : Fr)
    (buckets : List ((Int × Int) × List Nat))
    (hbk : ∀ k v, v ∈ (mapGet buckets k).getD [] → v < points.length)
    (uf0 : UF) (h0 : UFInv points.length uf0) :
    UFInv points.length (unionPass points tol2 cell buckets uf0) ∧
    UFMono uf0 (unionPass points tol2 cell buckets uf0) := by
  rw [unionPass]
  refine foldl_inv_mono points.length _ points.enum ?_ uf0 h0
  intro uf ip hip hInv
  have hi : ip.1 < points.length := by
    have := List.mem_enumFrom hip
    omega
  dsimp only
  refine foldl_inv_mono points.length _ _ ?_ uf hInv
  intro uf2 j hjmem hInv2
  have hj : j < points.length := by
    obtain ⟨c, hc⟩ := neighborsOf_subset buckets _ _ j hjmem
    exact hbk c j hc
  by_cases hle : j ≤ ip.1
  · rw [if_pos hle]
    exact ⟨hInv2, UFMono.rfl uf2⟩
  · rw [if_neg hle]
    by_cases hfl : fleb (dist2 ip.2.p (points.getD j default).p) tol2 = true
    · rw [if_pos hfl]
      exact union_inv_mono points.length uf2 ip.1 j hi hj hInv2
    · rw [if_neg hfl]
      exact ⟨hInv2, UFMono.rfl uf2⟩

theorem unionWires_inv_mono (n : Nat) (m : List (String × List Nat))
    (hm : ∀ pr, pr ∈ m → pr.2 ≠ [] ∧ ∀ v ∈ pr.2, v < n)
    (uf0 : UF) (h0 : UFInv n uf0) :
    UFInv n (unionWires m uf0) ∧ UFMono uf0 (unionWires m uf0) := by
  rw [unionWires]
  refine foldl_inv_mono n _ m ?_ uf0 h0
  intro uf pr hpr hInv
  obtain ⟨hne, hvals⟩ := hm pr hpr
  have hfirst : pr.2.getD 0 0 < n := by
    cases hq : pr.2 with
    | nil => exact absurd hq hne
    | cons a t =>
      apply hvals
      rw [hq]
      exact List.mem_cons_self a t
  refine foldl_inv_mono n _ _ ?_ uf hInv
  intro uf2 j hj hInv2
  exact union_inv_mono n uf2 _ j hfirst (hvals j (List.mem_of_mem_drop hj)) hInv2

theorem clusterUF_inv (doc : CircuitDoc) :
    UFInv (collectPoints doc).length (clusterUF doc) := by
  rw [clusterUF]
  refine (unionWires_inv_mono (collectPoints doc).length (wireIdxMap (collectPoints doc))
    (fun pr hpr => wireIdxMap_values (collectPoints doc) pr hpr) _ ?_).1
  refine (unionPass_inv_mono (collectPoints doc) _ _ _
    (fun k v hv => buildBuckets_lt (collectPoints doc) _ k v hv) _ ?_).1
  exact UFInv.init (collectPoints doc).length

theorem unionPass_eq_fold (points : List PRef) (tol2 cell : Fr)
    (buckets : List ((Int × Int) × List Nat)) (uf0 : UF) :
    unionPass points tol2 cell buckets uf0 =
      points.enum.foldl (upStep points tol2 cell buckets) uf0 := rfl

theorem upJoin_inv_mono (points : List PRef) (tol2 : Fr) (i : Nat) (pi : PointF)
    (uf : UF) (j : Nat) (hi : i < points.length) (hj : j < points.length)
    (hInv : UFInv points.length uf) :
    UFInv points.length (upJoin points tol2 i pi uf j) ∧
    UFMono uf (upJoin points tol2 i pi uf j) := by
  rw [upJoin]
  by_cases hle : j ≤ i
  · rw [if_pos hle]
    exact ⟨hInv, UFMono.rfl uf⟩
  · rw [if_neg hle]
    by_cases hfl : fleb (dist2 pi (points.getD j default).p) tol2 = true
    · rw [if_pos hfl]
      exact union_inv_mono points.length uf i j hi hj hInv
    · rw [if_neg hfl]
      exact ⟨hInv, UFMono.rfl uf⟩

theorem upJoin_hit (points : List PRef) (tol2 : Fr) (i : Nat) (pi : PointF)
    (uf : UF) (j : Nat) (hij : i < j) (hi : i < points.length) (hj : j < points.length)
    (hfl : fleb (dist2 pi (points.getD j default).p) tol2 = true)
    (hInv : UFInv points.length uf) :
    (upJoin points tol2 i pi uf j).root i = (upJoin points tol2 i pi uf j).root j := by
  rw [upJoin, if_neg (by omega), if_pos hfl]
  exact union_root_eq points.length uf i j hi hj hInv

theorem upStep_inv_mono (points : List PRef) (tol2 cell : Fr)
    (buckets : List ((Int × Int) × List Nat))
    (hbk : ∀ k v, v ∈ (mapGet buckets k).getD [] → v < points.length)
    (uf : UF) (ip : Nat × PRef) (hip : ip.1 < points.length)
    (hInv : UFInv points.length uf) :
    UFInv points.length (upStep points tol2 cell buckets uf ip) ∧
    UFMono uf (upStep points tol2 cell buckets uf ip) := by
  rw [upStep]
  refine foldl_inv_mono points.length _ _ ?_ uf hInv
  intro uf2 j hjmem hInv2
  have hj : j < points.length := by
    obtain ⟨c, hc⟩ := neighborsOf_subset buckets _ _ j hjmem
    exact hbk c j hc
  exact upJoin_inv_mono points tol2 ip.1 ip.2.p uf2 j hip hj hInv2

theorem clusterUF_eq (doc : CircuitDoc) :
    clusterUF doc = unionWires (wireIdxMap (collectPoints doc))
      (unionPass (collectPoints doc)
        (fmul (tolOf doc.grid) (tolOf doc.grid)) (cellOf doc.grid)
        (buildBuckets (collectPoints doc) (cellOf doc.grid))
        (UF.init (collectPoints doc).length)) := rfl

theorem clusterUF_merges (doc : CircuitDoc) (i j : Nat) (hij : i < j)
    (hj : j < (collectPoints doc).length)
    (hd : fleb (dist2 ((collectPoints doc).getD i default).p
                      ((collectPoints doc).getD j default).p)
          (fmul (tolOf doc.grid) (tolOf doc.grid)) = true) :
    (clusterUF doc).root i = (clusterUF doc).root j := by
  have hi : i < (collectPoints doc).length := lt_trans hij hj
  set points := collectPoints doc with hpts
  set tol2 := fmul (tolOf doc.grid) (tolOf doc.grid) with htol2
  set cell := cellOf doc.grid with hcell
  set buckets := buildBuckets points cell with hbks
  set n := points.length with hn
  have hbk : ∀ k v, v ∈ (mapGet buckets k).getD [] → v < n :=
    fun k v hv => buildBuckets_lt points cell k v hv
  have hiE : i < points.enum.length := by rw [List.enum_length]; exact hi
  have hjE : j < points.enum.length := by rw [List.enum_length]; exact hj
  have hgetI : points.getD i default = points[i] := List.getD_eq_getElem points default hi
  have hgetJ : points.getD j default = points[j] := List.getD_eq_getElem points default hj
  have hstep : ∀ (uf : UF) (ip : Nat × PRef), ip ∈ points.enum → UFInv n uf →
      UFInv n (upStep points tol2 cell buckets uf ip) ∧
      UFMono uf (upStep points tol2 cell buckets uf ip) := by
    intro uf ip hip hInv
    have hip1 : ip.1 < n := by
      have := List.mem_enumFrom hip
      omega
    exact upStep_inv_mono points tol2 cell buckets hbk uf ip hip1 hInv
  have hA : UFInv n (unionPass points tol2 cell buckets (UF.init n)) ∧
      (unionPass points tol2 cell buckets (UF.init n)).root i =
      (unionPass points tol2 cell buckets (UF.init n)).root j := by
    rw [unionPass_eq_fold]
    have henum : points.enum =
        points.enum.take i ++ (i, points[i]) :: points.enum.drop (i + 1) := by
      conv_lhs => rw [← List.take_append_drop i points.enum]
      rw [List.drop_eq_getElem_cons hiE, List.getElem_enum]
    rw [henum, List.foldl_append, List.foldl_cons]
    obtain ⟨hInv1, _⟩ := foldl_inv_mono n (upStep points tol2 cell buckets)
      (points.enum.take i)
      (fun uf ip hip hInv => hstep uf ip (List.take_subset i points.enum hip) hInv)
      (UF.init n) (UFInv.init n)
    set uf1 := (points.enum.take i).foldl (upStep points tol2 cell buckets) (UF.init n)
      with huf1
    have hhit : UFInv n (upStep points tol2 cell buckets uf1 (i, points[i])) ∧
        (upStep points tol2 cell buckets uf1 (i, points[i])).root i =
        (upStep points tol2 cell buckets uf1 (i, points[i])).root j := by
      rw [upStep]
      show UFInv n ((neighborsOf buckets (cellIdxOf cell points[i].p).1
          (cellIdxOf cell points[i].p).2).foldl (upJoin points tol2 i points[i].p) uf1) ∧ _
      have hmemJ : (j, points[j]) ∈ points.enum := by
        have h1 : (j, points[j]) = points.enum[j] := (List.getElem_enum points j hjE).symm
        rw [h1]
        exact List.getElem_mem hjE
      have hbJ : j ∈ (mapGet buckets (cellIdxOf cell points[j].p)).getD [] :=
        buildBuckets_mem points cell (j, points[j]) hmemJ
      obtain ⟨dx, dy, hdx, hdy, hEq⟩ :=
        cellIdx_adj doc.grid (points.getD i default).p (points.getD j default).p hd
      rw [hgetI, hgetJ] at hEq
      have hjN : j ∈ neighborsOf buckets (cellIdxOf cell points[i].p).1
          (cellIdxOf cell points[i].p).2 := by
        apply mem_neighborsOf buckets _ _ dx dy hdx hdy j
        rw [← hEq]
        exact hbJ
      obtain ⟨s, t, hN⟩ := List.append_of_mem hjN
      rw [hN, List.foldl_append, List.foldl_cons]
      have hsub : ∀ x, x ∈ neighborsOf buckets (cellIdxOf cell points[i].p).1
          (cellIdxOf cell points[i].p).2 → x < n := by
        intro x hx
        obtain ⟨c, hc⟩ := neighborsOf_subset buckets _ _ x hx
        exact hbk c x hc
      obtain ⟨hInv1a, _⟩ := foldl_inv_mono n (upJoin points tol2 i points[i].p) s
        (fun uf x hx hInv => upJoin_inv_mono points tol2 i points[i].p uf x hi
          (hsub x (by rw [hN]; exact List.mem_append_left _ hx)) hInv)
        uf1 hInv1
      set uf1a := s.foldl (upJoin points tol2 i points[i].p) uf1 with huf1a
      have hroot : (upJoin points tol2 i points[i].p uf1a j).root i =
          (upJoin points tol2 i points[i].p uf1a j).root j := by
        apply upJoin_hit points tol2 i points[i].p uf1a j hij hi hj ?_ hInv1a
        rw [hgetI] at hd
        exact hd
      obtain ⟨hInvJ, _⟩ := upJoin_inv_mono points tol2 i points[i].p uf1a j hi hj hInv1a
      obtain ⟨hInvT, hMonoT⟩ := foldl_inv_mono n (upJoin points tol2 i points[i].p) t
        (fun uf x hx hInv => upJoin_inv_mono points tol2 i points[i].p uf x hi
          (hsub x (by rw [hN]; exact List.mem_append_right _ (List.mem_cons_of_mem j hx))) hInv)
        (upJoin points tol2 i points[i].p uf1a j) hInvJ
      exact ⟨hInvT, hMonoT i j hroot⟩
    obtain ⟨hInv2, hMono2⟩ := foldl_inv_mono n (upStep points tol2 cell buckets)
      (points.enum.drop (i + 1))
      (fun uf ip hip hInv => hstep uf ip (List.drop_subset (i + 1) points.enum hip) hInv)
      (upStep points tol2 cell buckets uf1 (i, points[i])) hhit.1
    exact ⟨hInv2, hMono2 i j hhit.2⟩
  obtain ⟨hInvW, hMonoW⟩ := unionWires_inv_mono n (wireIdxMap points)
    (fun pr hpr => wireIdxMap_values points pr hpr)
    (unionPass points tol2 cell buckets (UF.init n)) hA.1
  rw [clusterUF_eq]
  exact hMonoW i j hA.2

theorem toQ_dist2_symm (a b : PointF) : (dist2 a b).toQ = (dist2 b a).toQ := by
  rw [dist2, dist2, toQ_fadd, toQ_fadd, toQ_fmul, toQ_fmul, toQ_fmul, toQ_fmul,
      toQ_fsub, toQ_fsub, toQ_fsub, toQ_fsub]
  ring

/-- C9 (amended): clustering is union-find based and therefore transitive: any
two collected points whose squared distance is within the squared tolerance
`max(6, floor(grid*0.35))^2` always end in the same equivalence class,
regardless of processing order; but two points farther apart than the
tolerance may still merge through a chain of intermediate points, so the
"never merge" half of the original claim is false. -/
theorem c9_theorem (doc : CircuitDoc) (i j : Nat)
    (hi : i < (collectPoints doc).length) (hj : j < (collectPoints doc).length)
    (hd : fleb (dist2 ((collectPoints doc).getD i default).p
                      ((collectPoints doc).getD j default).p)
          (fmul (tolOf doc.grid) (tolOf doc.grid)) = true) :
    sameClass (clusterUF doc) i j = true := by
  obtain ⟨hwf, hlen⟩ := clusterUF_inv doc
  have hi2 : i < (clusterUF doc).parent.length := by rw [hlen]; exact hi
  have hj2 : j < (clusterUF doc).parent.length := by rw [hlen]; exact hj
  rw [sameClass_iff (clusterUF doc) hwf i j hi2 hj2]
  rcases lt_trichotomy i j with h | h | h
  · exact clusterUF_merges doc i j h hj hd
  · rw [h]
  · have hd2 : fleb (dist2 ((collectPoints doc).getD j default).p
                          ((collectPoints doc).getD i default).p)
        (fmul (tolOf doc.grid) (tolOf doc.grid)) = true := by
      rw [fleb_iff] at hd ⊢
      rw [toQ_dist2_symm]
      exact hd
    exact (clusterUF_merges doc j i h hi hd2).symm

/-- C9, counterexample to the original claim: in `chainDoc` the two terminals
at `(0,0)` (index 0) and `(12,0)` (index 2) are at distance 12, beyond the
tolerance 6, yet they end in the same class through the junction at `(6,0)`. -/
theorem c9_counterexample :
    fleb (dist2 ((collectPoints chainDoc).getD 0 default).p
                ((collectPoints chainDoc).getD 2 default).p)
      (fmul (tolOf chainDoc.grid) (tolOf chainDoc.grid)) = false ∧
    sameClass (clusterUF chainDoc) 0 2 = true := by decide

/-- C9, witness: the terminal `(0,0)` (index 0) and the junction `(6,0)`
(index 4) of `chainDoc` are at distance 6 = tolerance, and merge. -/
theorem c9_theorem_witness :
    (0 < (collectPoints chainDoc).length ∧ 4 < (collectPoints chainDoc).length ∧
      fleb (dist2 ((collectPoints chainDoc).getD 0 default).p
                  ((collectPoints chainDoc).getD 4 default).p)
        (fmul (tolOf chainDoc.grid) (tolOf chainDoc.grid)) = true) ∧
    sameClass (clusterUF chainDoc) 0 4 = true :=
  ⟨⟨by decide, by decide, by decide⟩,
   c9_theorem chainDoc 0 4 (by decide) (by decide) (by decide)⟩
